import Mathlib

/-!
# Stim: the measurement record batch

A verification development for `src/simulators/measure_record_batch.cc`.

The embedding works at row granularity.  A `simd_bits` / `simd_bits_range_ref`
is a list of bits of the padded width, a `simd_bit_table` is the list of its
rows (major axis) together with the padded row width (minor axis).  The
counters `stored`, `unwritten`, `written` and `max_lookback` are `size_t` in
the source; they are natural numbers here, because they count rows held in
memory or rows already emitted and cannot reach `2 ^ 64`.  Subtractions of
counters are truncated in `Nat`; the theorem on the index computations shows
that in every reachable state no subtraction of the source goes below zero and
no row index leaves the table, so the truncation is never observed.
-/

namespace Stim

/-! ## Bit rows and bit tables -/

/-- A padded row of bits, the content of a `simd_bits` or of a
`simd_bits_range_ref`. -/
abbrev Row := List Bool

/-- Modelled from the spec: `simd_bits_range_ref::operator&=` is declared in
`simd/simd_bits_range_ref.h`, outside the sources at hand.  Bitwise AND of two
rows of equal padded width (the spec's `and_assign`). -/
def and_assign (a b : Row) : Row := List.zipWith (fun x y => x && y) a b

/-- Modelled from the spec: `simd_bits_range_ref::operator^=` is declared in
`simd/simd_bits_range_ref.h`, outside the sources at hand.  Bitwise XOR of two
rows of equal padded width (the spec's `xor_assign`). -/
def xor_assign (a b : Row) : Row := List.zipWith (fun x y => Bool.xor x y) a b

/-- Bitwise complement of a row. -/
def row_not (a : Row) : Row := a.map (fun x => !x)

/-- Whether every bit of the row is zero. -/
def row_is_zero (a : Row) : Bool := a.all (fun x => !x)

/-- The test `j < ref_sample.num_bits_padded() && ref_sample[j]` of the two
write operations. -/
def ref_bit (ref_sample : Row) (j : Nat) : Bool :=
  decide (j < ref_sample.length) && ref_sample.getD j false

/-- Modelled from the spec: the rounding of a bit count up to a multiple of the
SIMD word width `W` ("storage padded up to a SIMD word multiple"); the width
and the rounding function live in `simd/simd_util.h`, outside the sources at
hand. -/
def padded_bits (W n : Nat) : Nat := (n + W - 1) / W * W

/-- Modelled from the spec: `simd_bit_table` is declared in
`simd/simd_bit_table.h`, outside the sources at hand.  A rectangular bit matrix
of `num_major_bits_padded × num_minor_bits_padded` bits, kept as the list of
its rows. -/
structure simd_bit_table where
  /-- Padded width of every row. -/
  num_minor_bits_padded : Nat
  /-- The rows, index 0 first. -/
  rows : List Row
deriving DecidableEq

namespace simd_bit_table

/-- Number of rows of the table. -/
def num_major_bits_padded (t : simd_bit_table) : Nat := t.rows.length

/-- The zero table of the given padded sizes. -/
def zeros (major minor : Nat) : simd_bit_table :=
  ⟨minor, List.replicate major (List.replicate minor false)⟩

/-- The constructor `simd_bit_table(min_bits_major, min_bits_minor)`: a zero
table whose two sizes are rounded up to the SIMD word width `W`. -/
def create (W min_bits_major min_bits_minor : Nat) : simd_bit_table :=
  zeros (padded_bits W min_bits_major) (padded_bits W min_bits_minor)

/-- Read access `t[k]`. -/
def row (t : simd_bit_table) (k : Nat) : Row := t.rows.getD k []

/-- Write access through the row reference `t[k]`. -/
def set_row (t : simd_bit_table) (k : Nat) (r : Row) : simd_bit_table :=
  { t with rows := t.rows.set k r }

/-- The rows `[maj_start, maj_stop)` as a table
(`slice_maj(maj_start, maj_stop)`); `SliceKind` below says whether writes to
the slice reach the table it was taken from. -/
def slice_maj (t : simd_bit_table) (maj_start maj_stop : Nat) : simd_bit_table :=
  ⟨t.num_minor_bits_padded, (t.rows.drop maj_start).take (maj_stop - maj_start)⟩

/-- Puts the rows of `block` back at the rows of `t` starting at `maj_start`
that they were sliced from. -/
def write_back (t : simd_bit_table) (maj_start : Nat) (block : simd_bit_table) :
    simd_bit_table :=
  { t with rows := t.rows.take maj_start ++ block.rows ++
      t.rows.drop (maj_start + block.rows.length) }

/-- The compaction copy
`memcpy(storage.data.u8, storage[src].u8, m * storage.num_minor_u8_padded())`:
the `m` rows starting at row `src` overwrite the rows `0 .. m - 1`. -/
def memcpy_to_front (t : simd_bit_table) (src m : Nat) : simd_bit_table :=
  { t with rows := (t.rows.drop src).take m ++ t.rows.drop m }

/-- The growth step of `record_result`: a zero table with twice as many rows
(both sizes are already padded, so the constructor leaves them as they are)
whose leading words are overwritten with the old data. -/
def doubled (t : simd_bit_table) : simd_bit_table :=
  let new_storage := zeros (t.num_major_bits_padded * 2) t.num_minor_bits_padded
  { new_storage with rows := t.rows ++ new_storage.rows.drop t.rows.length }

end simd_bit_table

/-- What `auto slice = storage.slice_maj(..)` of the intermediate write holds.
`slice_maj` is declared in `simd/simd_bit_table.h`, outside the sources at
hand, so the embedding carries both readings of it: `copy`, a table of its
own, whose rows are XORed without touching `storage`, and `view`, a table that
shares its rows with `storage` (the data model of the spec speaks of slice
ranges as references).  The source fits `copy`: `auto` declares a table by
value, and while the final write, which XORs the row references `storage[k]`,
undoes each XOR after writing, the intermediate write never undoes its own.
Every theorem about the intermediate write holds for both kinds, except
lookback correctness, which is stated for `copy`; `flush_block_copy_or_view`
shows where the two kinds part. -/
inductive SliceKind where
  | copy
  | view
deriving DecidableEq

/-! ## The writer -/

/-- One call received by the `MeasureRecordBatchWriter`. -/
inductive WriterCall where
  | batch_write_bytes (table : simd_bit_table) (num_words : Nat)
  | batch_write_bit (row : Row)
  | write_end
deriving DecidableEq

/-! ## The record -/

/-- The fields of `MeasureRecordBatch`. -/
structure MeasureRecordBatch where
  max_lookback : Nat
  unwritten : Nat
  stored : Nat
  written : Nat
  shot_mask : Row
  storage : simd_bit_table
deriving DecidableEq

namespace MeasureRecordBatch

/-- The constructor `MeasureRecordBatch(num_shots, max_lookback)`; `W` is the
SIMD word width in bits. -/
def init (W num_shots max_lookback : Nat) : MeasureRecordBatch :=
  { max_lookback := max_lookback
    unwritten := 0
    stored := 0
    written := 0
    shot_mask := List.replicate num_shots true ++
      List.replicate (padded_bits W num_shots - num_shots) false
    storage := simd_bit_table.create W 1 num_shots }

/-- The method `record_result(result)`. -/
def record_result (s : MeasureRecordBatch) (result : Row) : MeasureRecordBatch :=
  let storage1 :=
    if s.stored ≥ s.storage.num_major_bits_padded then s.storage.doubled else s.storage
  let storage2 := storage1.set_row s.stored result
  let storage3 := storage2.set_row s.stored (and_assign (storage2.row s.stored) s.shot_mask)
  { s with storage := storage3, stored := s.stored + 1, unwritten := s.unwritten + 1 }

/-- The method `lookback(lookback)`; the three `std::out_of_range` exceptions
are the three errors, in the order of the source. -/
def lookback (s : MeasureRecordBatch) (k : Nat) : Except String Row :=
  if k > s.stored then
    .error "Referred to a measurement record before the beginning of time."
  else if k = 0 then
    .error "Lookback must be non-zero."
  else if k > s.max_lookback then
    .error "Referred to a measurement record past the lookback limit."
  else
    .ok (s.storage.row (s.stored - k))

/-- The method `mark_all_as_written()`. -/
def mark_all_as_written (s : MeasureRecordBatch) : MeasureRecordBatch :=
  let s1 := { s with unwritten := 0 }
  let m := s1.max_lookback
  if (s1.stored >>> 1) > m then
    { s1 with storage := s1.storage.memcpy_to_front (s1.stored - m) m, stored := m }
  else s1

/-- The inner loop `for (k = 0; k < 1024; k++)` of the intermediate write on
the rows of the slice: row `k` is XORed with `shot_mask` when bit
`j = written + k` of `ref_sample` is set. -/
def xor_reference (shot_mask ref_sample : Row) : Nat → List Row → List Row
  | _, [] => []
  | j, r :: rs =>
    (if ref_bit ref_sample j then xor_assign r shot_mask else r) ::
      xor_reference shot_mask ref_sample (j + 1) rs

/-- The body of the loop `while (unwritten >= 1024)` of the intermediate write:
the record after the iteration and the call it makes on the writer. -/
def flush_block (kind : SliceKind) (ref_sample : Row) (s : MeasureRecordBatch) :
    MeasureRecordBatch × WriterCall :=
  let start := s.stored - s.unwritten
  let slice0 := s.storage.slice_maj start (start + 1024)
  let slice : simd_bit_table :=
    { slice0 with rows := xor_reference s.shot_mask ref_sample s.written slice0.rows }
  let storage1 :=
    match kind with
    | .copy => s.storage
    | .view => s.storage.write_back start slice
  ({ s with storage := storage1, unwritten := s.unwritten - 1024,
            written := s.written + 1024 },
   WriterCall.batch_write_bytes slice (1024 >>> 6))

/-- The loop `while (unwritten >= 1024)` of the intermediate write; `fuel`
bounds the number of iterations. -/
def flush_blocks (kind : SliceKind) (ref_sample : Row) :
    Nat → MeasureRecordBatch → List WriterCall → MeasureRecordBatch × List WriterCall
  | 0, s, out => (s, out)
  | fuel + 1, s, out =>
    if s.unwritten ≥ 1024 then
      flush_blocks kind ref_sample fuel (flush_block kind ref_sample s).1
        (out ++ [(flush_block kind ref_sample s).2])
    else (s, out)

/-- The method `intermediate_write_unwritten_results_to(writer, ref_sample)`:
the new record and the calls made on the writer, in order.  The loop runs with
`unwritten / 1024 + 1` units of fuel, one more than it has iterations. -/
def intermediate_write_unwritten_results_to (kind : SliceKind) (s : MeasureRecordBatch)
    (ref_sample : Row) : MeasureRecordBatch × List WriterCall :=
  let (s1, out) := flush_blocks kind ref_sample (s.unwritten / 1024 + 1) s []
  let m := max s1.max_lookback s1.unwritten
  if (s1.stored >>> 1) > m then
    ({ s1 with storage := s1.storage.memcpy_to_front (s1.stored - m) m, stored := m }, out)
  else (s1, out)

/-- The body of the loop `for (k = n - unwritten; k < n; k++)` of the final
write: the record after the iteration and the call it makes on the writer. -/
def final_row (ref_sample : Row) (k : Nat) (s : MeasureRecordBatch) :
    MeasureRecordBatch × WriterCall :=
  let invert := ref_bit ref_sample s.written
  let storage1 :=
    if invert then s.storage.set_row k (xor_assign (s.storage.row k) s.shot_mask)
    else s.storage
  let call := WriterCall.batch_write_bit (storage1.row k)
  let storage2 :=
    if invert then storage1.set_row k (xor_assign (storage1.row k) s.shot_mask)
    else storage1
  ({ s with storage := storage2, written := s.written + 1 }, call)

/-- The loop `for (k = n - unwritten; k < n; k++)` of the final write; `count`
is the number of iterations left. -/
def final_loop (ref_sample : Row) :
    Nat → Nat → MeasureRecordBatch → List WriterCall → MeasureRecordBatch × List WriterCall
  | 0, _, s, out => (s, out)
  | count + 1, k, s, out =>
    final_loop ref_sample count (k + 1) (final_row ref_sample k s).1
      (out ++ [(final_row ref_sample k s).2])

/-- The method `final_write_unwritten_results_to(writer, ref_sample)`: the new
record and the calls made on the writer, in order. -/
def final_write_unwritten_results_to (s : MeasureRecordBatch) (ref_sample : Row) :
    MeasureRecordBatch × List WriterCall :=
  let n := s.stored
  let (s1, out) := final_loop ref_sample (n - (n - s.unwritten)) (n - s.unwritten) s []
  ({ s1 with unwritten := 0 }, out ++ [WriterCall.write_end])

/-- The method `clear()`. -/
def clear (s : MeasureRecordBatch) : MeasureRecordBatch :=
  { s with stored := 0, unwritten := 0 }

end MeasureRecordBatch

/-! ## Sequences of calls -/

/-- A call of one of the five mutating methods of the record. -/
inductive Op where
  | record_result (result : Row)
  | mark_all_as_written
  | intermediate_write (ref_sample : Row)
  | final_write (ref_sample : Row)
  | clear
deriving DecidableEq

/-- The record after one call. -/
def step (kind : SliceKind) (s : MeasureRecordBatch) : Op → MeasureRecordBatch
  | .record_result r => s.record_result r
  | .mark_all_as_written => s.mark_all_as_written
  | .intermediate_write ref => (s.intermediate_write_unwritten_results_to kind ref).1
  | .final_write ref => (s.final_write_unwritten_results_to ref).1
  | .clear => s.clear

/-- The record after a sequence of calls, first call first. -/
def run (kind : SliceKind) (ops : List Op) (s : MeasureRecordBatch) : MeasureRecordBatch :=
  ops.foldl (step kind) s

/-- The arguments of the `record_result` calls of a sequence, oldest first. -/
def recorded_args (ops : List Op) : List Row :=
  ops.filterMap (fun op => match op with
    | .record_result r => some r
    | _ => none)

/-! ## Specification-side definitions and invariants -/

/-- A row has no bit outside the shot mask: `r AND NOT shot_mask == 0`. -/
def mask_respected (mask r : Row) : Prop :=
  row_is_zero (and_assign r (row_not mask)) = true

/-- The rows appended by a sequence of calls, oldest first: the arguments of the
`record_result` calls, each ANDed with the shot mask. -/
def appended_rows (mask : Row) (ops : List Op) : List Row :=
  (recorded_args ops).map (fun r => and_assign r mask)

/-- The rows one call appends. -/
def appended_by (mask : Row) : Op → List Row
  | .record_result r => [and_assign r mask]
  | _ => []

/-- The reference XOR as the spec words it, on the rows of one block: the row
with global index `j` is XORed with `shot_mask` when bit `j` of `ref_sample` is
set. -/
def reference_xor_rows (shot_mask ref_sample : Row) : Nat → List Row → List Row
  | _, [] => []
  | j, r :: rs =>
    (if ref_sample.getD j false then xor_assign r shot_mask else r) ::
      reference_xor_rows shot_mask ref_sample (j + 1) rs

/-- The reference XOR as the spec words it (`flush(writer, zero) XOR
ref_sample`, row by row), on what a writer received without a reference; `j`
is the global index of the next row. -/
def reference_xor (shot_mask ref_sample : Row) : Nat → List WriterCall → List WriterCall
  | _, [] => []
  | j, .batch_write_bytes table num_words :: calls =>
    .batch_write_bytes
      { table with rows := reference_xor_rows shot_mask ref_sample j table.rows } num_words ::
      reference_xor shot_mask ref_sample (j + table.rows.length) calls
  | j, .batch_write_bit row :: calls =>
    .batch_write_bit (if ref_sample.getD j false then xor_assign row shot_mask else row) ::
      reference_xor shot_mask ref_sample (j + 1) calls
  | j, .write_end :: calls => .write_end :: reference_xor shot_mask ref_sample j calls

/-- The invariant of the record, for either kind of slice; `hist` lists the
rows appended so far. -/
structure Inv (mask : Row) (s : MeasureRecordBatch) (hist : List Row) : Prop where
  mask_eq : s.shot_mask = mask
  cap_pos : 0 < s.storage.rows.length
  u_le : s.unwritten ≤ s.stored
  s_le : s.stored ≤ s.storage.rows.length
  minor_le : s.storage.num_minor_bits_padded ≤ mask.length
  width : ∀ r ∈ s.storage.rows, r.length ≤ mask.length
  masked : ∀ r ∈ s.storage.rows, mask_respected mask r
  count : s.written + s.unwritten ≤ hist.length
  tail : (s.storage.rows.take s.stored).drop (s.stored - s.unwritten) =
    hist.drop (hist.length - s.unwritten)

/-- The invariant that holds when the flushed slice is a table of its own:
the record is the tail of the appended rows. -/
structure InvCopy (s : MeasureRecordBatch) (hist : List Row) : Prop where
  s_hist : s.stored ≤ hist.length
  full : s.storage.rows.take s.stored = hist.drop (hist.length - s.stored)

/-! # Proofs -/

open MeasureRecordBatch

/-! ## Arithmetic and list facts -/

theorem shr_one (n : Nat) : n >>> 1 = n / 2 := by
  rw [Nat.shiftRight_eq_div_pow]

theorem padded_bits_ge (W n : Nat) (hW : 0 < W) : n ≤ padded_bits W n := by
  unfold padded_bits
  have h1 : (n + W - 1) % W < W := Nat.mod_lt _ hW
  have h2 := Nat.div_add_mod (n + W - 1) W
  rw [Nat.mul_comm] at h2
  omega

/-! ## The methods, field by field -/

theorem mark_all_as_written_eq (s : MeasureRecordBatch) :
    s.mark_all_as_written =
      if s.stored / 2 > s.max_lookback then
        { s with unwritten := 0, stored := s.max_lookback,
                 storage := s.storage.memcpy_to_front (s.stored - s.max_lookback) s.max_lookback }
      else { s with unwritten := 0 } := by
  unfold mark_all_as_written
  simp only [shr_one]

theorem write_back_length (t block : simd_bit_table) (a : Nat)
    (h : block.rows.length ≤ t.rows.length - a) :
    (t.write_back a block).rows.length = t.rows.length := by
  simp only [simd_bit_table.write_back, List.length_append, List.length_take, List.length_drop]
  omega

theorem xor_reference_length (mask ref : Row) (j : Nat) (rows : List Row) :
    (xor_reference mask ref j rows).length = rows.length := by
  induction rows generalizing j with
  | nil => rfl
  | cons r rs ih => simp [xor_reference, ih]

theorem flush_block_fields (kind : SliceKind) (ref : Row) (s : MeasureRecordBatch) :
    (flush_block kind ref s).1.max_lookback = s.max_lookback ∧
    (flush_block kind ref s).1.stored = s.stored ∧
    (flush_block kind ref s).1.shot_mask = s.shot_mask ∧
    (flush_block kind ref s).1.unwritten = s.unwritten - 1024 ∧
    (flush_block kind ref s).1.written = s.written + 1024 ∧
    (flush_block kind ref s).1.storage.num_minor_bits_padded =
      s.storage.num_minor_bits_padded ∧
    (flush_block kind ref s).1.storage.rows.length = s.storage.rows.length := by
  refine ⟨?_, ?_, ?_, ?_, ?_, ?_, ?_⟩
  · simp only [flush_block]
  · simp only [flush_block]
  · simp only [flush_block]
  · simp only [flush_block]
  · simp only [flush_block]
  · cases kind
    · simp only [flush_block]
    · simp only [flush_block]; rfl
  · cases kind
    · simp only [flush_block]
    · simp only [flush_block]
      refine write_back_length _ _ _ ?_
      simp only [xor_reference_length, simd_bit_table.slice_maj, List.length_take,
        List.length_drop]
      exact Nat.min_le_right _ _

theorem flush_blocks_succ (kind : SliceKind) (ref : Row) (fuel : Nat) (s : MeasureRecordBatch)
    (out : List WriterCall) (h : 1024 ≤ s.unwritten) :
    flush_blocks kind ref (fuel + 1) s out =
      flush_blocks kind ref fuel (flush_block kind ref s).1
        (out ++ [(flush_block kind ref s).2]) := by
  have h' : s.unwritten ≥ 1024 := h
  simp [flush_blocks, h']

theorem flush_blocks_stop (kind : SliceKind) (ref : Row) (fuel : Nat) (s : MeasureRecordBatch)
    (out : List WriterCall) (h : s.unwritten < 1024) :
    flush_blocks kind ref fuel s out = (s, out) := by
  cases fuel with
  | zero => rfl
  | succ n =>
    have h' : ¬ s.unwritten ≥ 1024 := by omega
    simp [flush_blocks, h']

/-- The counters and the sizes after the flush loop, when the fuel covers the
number of full blocks. -/
theorem flush_blocks_fields (kind : SliceKind) (ref : Row) (fuel : Nat) :
    ∀ (s : MeasureRecordBatch) (out : List WriterCall), s.unwritten / 1024 < fuel →
      (flush_blocks kind ref fuel s out).1.max_lookback = s.max_lookback ∧
      (flush_blocks kind ref fuel s out).1.stored = s.stored ∧
      (flush_blocks kind ref fuel s out).1.shot_mask = s.shot_mask ∧
      (flush_blocks kind ref fuel s out).1.unwritten = s.unwritten % 1024 ∧
      (flush_blocks kind ref fuel s out).1.written = s.written + 1024 * (s.unwritten / 1024) ∧
      (flush_blocks kind ref fuel s out).1.storage.num_minor_bits_padded =
        s.storage.num_minor_bits_padded ∧
      (flush_blocks kind ref fuel s out).1.storage.rows.length = s.storage.rows.length ∧
      (flush_blocks kind ref fuel s out).2.length = out.length + s.unwritten / 1024 := by
  induction fuel with
  | zero => intro s out h; omega
  | succ n ih =>
    intro s out h
    by_cases hu : s.unwritten < 1024
    · rw [flush_blocks_stop kind ref _ s out hu]
      refine ⟨rfl, rfl, rfl, ?_, ?_, rfl, rfl, ?_⟩ <;> dsimp only <;> omega
    · have hu' : 1024 ≤ s.unwritten := by omega
      rw [flush_blocks_succ kind ref n s out hu']
      obtain ⟨g1, g2, g3, g4, g5, g6, g7⟩ := flush_block_fields kind ref s
      have hfuel : (flush_block kind ref s).1.unwritten / 1024 < n := by rw [g4]; omega
      obtain ⟨h1, h2, h3, h4, h5, h6, h7, h8⟩ :=
        ih (flush_block kind ref s).1 (out ++ [(flush_block kind ref s).2]) hfuel
      refine ⟨h1.trans g1, h2.trans g2, h3.trans g3, ?_, ?_, h6.trans g6, h7.trans g7, ?_⟩
      · rw [h4, g4]; omega
      · rw [h5, g4, g5]; omega
      · rw [h8, g4]; simp only [List.length_append, List.length_singleton]; omega


theorem intermediate_write_eq (kind : SliceKind) (s : MeasureRecordBatch) (ref : Row) :
    s.intermediate_write_unwritten_results_to kind ref =
      if (flush_blocks kind ref (s.unwritten / 1024 + 1) s []).1.stored / 2 >
          max s.max_lookback (s.unwritten % 1024) then
        ({ (flush_blocks kind ref (s.unwritten / 1024 + 1) s []).1 with
            storage := (flush_blocks kind ref (s.unwritten / 1024 + 1) s []).1.storage.memcpy_to_front
              (s.stored - max s.max_lookback (s.unwritten % 1024))
              (max s.max_lookback (s.unwritten % 1024)),
            stored := max s.max_lookback (s.unwritten % 1024) },
          (flush_blocks kind ref (s.unwritten / 1024 + 1) s []).2)
      else flush_blocks kind ref (s.unwritten / 1024 + 1) s [] := by
  obtain ⟨h1, h2, h3, h4, -⟩ :=
    flush_blocks_fields kind ref (s.unwritten / 1024 + 1) s [] (Nat.lt_succ_self _)
  unfold intermediate_write_unwritten_results_to
  simp only [shr_one, h1, h2, h4]

/-- The counters after the intermediate write. -/
theorem intermediate_write_fields (kind : SliceKind) (s : MeasureRecordBatch) (ref : Row) :
    (s.intermediate_write_unwritten_results_to kind ref).1.max_lookback = s.max_lookback ∧
    (s.intermediate_write_unwritten_results_to kind ref).1.shot_mask = s.shot_mask ∧
    (s.intermediate_write_unwritten_results_to kind ref).1.unwritten = s.unwritten % 1024 ∧
    (s.intermediate_write_unwritten_results_to kind ref).1.written =
      s.written + 1024 * (s.unwritten / 1024) ∧
    (s.intermediate_write_unwritten_results_to kind ref).1.stored =
      (if s.stored / 2 > max s.max_lookback (s.unwritten % 1024) then
        max s.max_lookback (s.unwritten % 1024) else s.stored) ∧
    (s.intermediate_write_unwritten_results_to kind ref).1.storage.num_minor_bits_padded =
      s.storage.num_minor_bits_padded ∧
    (s.intermediate_write_unwritten_results_to kind ref).2 =
      (flush_blocks kind ref (s.unwritten / 1024 + 1) s []).2 := by
  obtain ⟨h1, h2, h3, h4, h5, h6, h7, h8⟩ :=
    flush_blocks_fields kind ref (s.unwritten / 1024 + 1) s [] (Nat.lt_succ_self _)
  rw [intermediate_write_eq, h2]
  by_cases hc : s.stored / 2 > max s.max_lookback (s.unwritten % 1024)
  · simp only [hc, if_true]
    exact ⟨h1, h3, h4, h5, trivial, h6, trivial⟩
  · simp only [hc, if_false]
    exact ⟨h1, h3, h4, h5, h2, h6, trivial⟩

/-! ## The final write -/

theorem xor_assign_cancel (r m : Row) (h : r.length ≤ m.length) :
    xor_assign (xor_assign r m) m = r := by
  induction r generalizing m with
  | nil => simp [xor_assign]
  | cons x xs ih =>
    cases m with
    | nil => simp at h
    | cons y ys =>
      simp only [List.length_cons, Nat.add_le_add_iff_right] at h
      have := ih ys h
      simp only [xor_assign] at this ⊢
      simp [this]

theorem set_getD_self (l : List Row) (k : Nat) : l.set k (l.getD k []) = l := by
  induction l generalizing k with
  | nil => simp
  | cons x xs ih =>
    cases k with
    | zero => simp
    | succ n => simpa using ih n

theorem row_length_le (t : simd_bit_table) (k n : Nat) (h : ∀ r ∈ t.rows, r.length ≤ n) :
    (t.row k).length ≤ n := by
  unfold simd_bit_table.row
  by_cases hk : k < t.rows.length
  · rw [List.getD_eq_getElem _ _ hk]
    exact h _ (List.getElem_mem _)
  · rw [List.getD_eq_default _ _ (by omega)]
    simp

theorem row_set_row (t : simd_bit_table) (k : Nat) (r : Row) (hk : k < t.rows.length) :
    (t.set_row k r).row k = r := by
  simp [simd_bit_table.row, simd_bit_table.set_row, List.getD_eq_getElem?_getD, hk]

/-- The reference row handed to the writer for a stored row `r` whose global
index is `j`. -/
theorem final_row_eq (ref : Row) (k : Nat) (s : MeasureRecordBatch)
    (h : ∀ r ∈ s.storage.rows, r.length ≤ s.shot_mask.length) :
    final_row ref k s =
      ({ s with written := s.written + 1 },
        WriterCall.batch_write_bit
          (if ref_bit ref s.written then xor_assign (s.storage.row k) s.shot_mask
           else s.storage.row k)) := by
  unfold final_row
  by_cases hb : ref_bit ref s.written = true
  · simp only [hb, if_true]
    by_cases hk : k < s.storage.rows.length
    · rw [row_set_row _ _ _ hk, xor_assign_cancel _ _ (row_length_le _ _ _ h)]
      have : (s.storage.set_row k (xor_assign (s.storage.row k) s.shot_mask)).set_row k
          (s.storage.row k) = s.storage := by
        simp only [simd_bit_table.set_row, simd_bit_table.row, List.set_set, set_getD_self]
      rw [this]
    · have hset : ∀ r, s.storage.set_row k r = s.storage := by
        intro r
        simp only [simd_bit_table.set_row]
        rw [List.set_eq_of_length_le (by omega)]
      have hrow : s.storage.row k = [] := by
        simp only [simd_bit_table.row]
        rw [List.getD_eq_default _ _ (by omega)]
      simp only [hset, hrow]
      simp [xor_assign]
  · simp only [hb]
    simp


/-- The row handed to `batch_write_bit` for row `k` when the global index of
the row is `j`. -/
theorem final_loop_eq (ref : Row) (count : Nat) :
    ∀ (k : Nat) (s : MeasureRecordBatch) (out : List WriterCall),
      (∀ r ∈ s.storage.rows, r.length ≤ s.shot_mask.length) →
      final_loop ref count k s out =
        ({ s with written := s.written + count },
          out ++ (List.range count).map (fun i =>
            WriterCall.batch_write_bit
              (if ref_bit ref (s.written + i) then
                xor_assign (s.storage.row (k + i)) s.shot_mask
               else s.storage.row (k + i)))) := by
  induction count with
  | zero => intro k s out _; simp [final_loop]
  | succ n ih =>
    intro k s out h
    rw [final_loop, final_row_eq ref k s h]
    dsimp only
    rw [ih (k + 1) { s with written := s.written + 1 } _ h]
    refine Prod.ext ?_ ?_
    · simp only [Nat.add_assoc, Nat.add_comm 1 n]
    · simp only [List.range_succ_eq_map, List.map_cons, List.map_map, List.append_assoc,
        List.singleton_append, Nat.add_zero]
      congr 2
      apply List.map_congr_left
      intro i _
      simp only [Function.comp, Nat.succ_eq_add_one, Nat.add_assoc, Nat.add_comm 1 i]

theorem final_write_eq (s : MeasureRecordBatch) (ref : Row)
    (hu : s.unwritten ≤ s.stored)
    (hw : ∀ r ∈ s.storage.rows, r.length ≤ s.shot_mask.length) :
    s.final_write_unwritten_results_to ref =
      ({ s with unwritten := 0, written := s.written + s.unwritten },
        (List.range s.unwritten).map (fun i =>
          WriterCall.batch_write_bit
            (if ref_bit ref (s.written + i) then
              xor_assign (s.storage.row (s.stored - s.unwritten + i)) s.shot_mask
             else s.storage.row (s.stored - s.unwritten + i))) ++ [WriterCall.write_end]) := by
  unfold final_write_unwritten_results_to
  have hc : s.stored - (s.stored - s.unwritten) = s.unwritten := by omega
  simp only [hc]
  rw [final_loop_eq ref s.unwritten _ s [] hw]
  simp

theorem final_write_fields (s : MeasureRecordBatch) (ref : Row) :
    (s.final_write_unwritten_results_to ref).1.max_lookback = s.max_lookback ∧
    (s.final_write_unwritten_results_to ref).1.shot_mask = s.shot_mask ∧
    (s.final_write_unwritten_results_to ref).1.unwritten = 0 ∧
    (s.final_write_unwritten_results_to ref).1.written =
      s.written + (s.stored - (s.stored - s.unwritten)) ∧
    (s.final_write_unwritten_results_to ref).1.stored = s.stored ∧
    (s.final_write_unwritten_results_to ref).1.storage.num_minor_bits_padded =
      s.storage.num_minor_bits_padded ∧
    (s.final_write_unwritten_results_to ref).1.storage.rows.length = s.storage.rows.length := by
  have key : ∀ (count k : Nat) (s : MeasureRecordBatch) (out : List WriterCall),
      (final_loop ref count k s out).1.max_lookback = s.max_lookback ∧
      (final_loop ref count k s out).1.shot_mask = s.shot_mask ∧
      (final_loop ref count k s out).1.written = s.written + count ∧
      (final_loop ref count k s out).1.stored = s.stored ∧
      (final_loop ref count k s out).1.storage.num_minor_bits_padded =
        s.storage.num_minor_bits_padded ∧
      (final_loop ref count k s out).1.storage.rows.length = s.storage.rows.length := by
    intro count
    induction count with
    | zero => intro k s out; simp [final_loop]
    | succ n ih =>
      intro k s out
      rw [final_loop]
      obtain ⟨h1, h2, h3, h4, h5, h6⟩ := ih (k + 1) (final_row ref k s).1 (out ++ [(final_row ref k s).2])
      have g5 : (final_row ref k s).1.storage.num_minor_bits_padded =
          s.storage.num_minor_bits_padded := by
        simp only [final_row, simd_bit_table.set_row]
        split <;> rfl
      have g6 : (final_row ref k s).1.storage.rows.length = s.storage.rows.length := by
        simp only [final_row, simd_bit_table.set_row]
        split <;> simp
      refine ⟨h1, h2, ?_, h4, h5.trans g5, h6.trans g6⟩
      rw [h3]
      simp only [final_row]
      omega
  obtain ⟨h1, h2, h3, h4, h5, h6⟩ :=
    key (s.stored - (s.stored - s.unwritten)) (s.stored - s.unwritten) s []
  unfold final_write_unwritten_results_to
  exact ⟨h1, h2, rfl, h3, h4, h5, h6⟩

/-! ## The blocks of the intermediate write -/

/-- The rows behind the block just flushed are untouched by the iteration. -/
theorem flush_block_drop (kind : SliceKind) (ref : Row) (s : MeasureRecordBatch)
    (hc : s.stored - s.unwritten + 1024 ≤ s.storage.rows.length) :
    (flush_block kind ref s).1.storage.rows.drop (s.stored - s.unwritten + 1024) =
      s.storage.rows.drop (s.stored - s.unwritten + 1024) := by
  cases kind
  · simp only [flush_block]
  · simp only [flush_block, simd_bit_table.write_back, simd_bit_table.slice_maj]
    have hlen : (xor_reference s.shot_mask ref s.written
        (List.take (s.stored - s.unwritten + 1024 - (s.stored - s.unwritten))
          (List.drop (s.stored - s.unwritten) s.storage.rows))).length = 1024 := by
      rw [xor_reference_length, List.length_take, List.length_drop]
      omega
    rw [hlen, List.drop_append_eq_append_drop]
    have h2 : (List.take (s.stored - s.unwritten) s.storage.rows ++
        xor_reference s.shot_mask ref s.written
          (List.take (s.stored - s.unwritten + 1024 - (s.stored - s.unwritten))
            (List.drop (s.stored - s.unwritten) s.storage.rows))).length =
        s.stored - s.unwritten + 1024 := by
      rw [List.length_append, hlen, List.length_take]
      omega
    rw [h2, List.drop_of_length_le (by omega)]
    simp

/-- The call made by one iteration. -/
theorem flush_block_call (kind : SliceKind) (ref : Row) (s : MeasureRecordBatch) :
    (flush_block kind ref s).2 =
      WriterCall.batch_write_bytes
        ⟨s.storage.num_minor_bits_padded,
          xor_reference s.shot_mask ref s.written
            ((s.storage.rows.drop (s.stored - s.unwritten)).take 1024)⟩ 16 := by
  simp only [flush_block, simd_bit_table.slice_maj, Nat.add_sub_cancel_left]
  rfl


theorem drop_eq_of_drop_eq {α : Type} (l1 l2 : List α) (a n : Nat) (h : l1.drop a = l2.drop a)
    (han : a ≤ n) : l1.drop n = l2.drop n := by
  have e : n = a + (n - a) := by omega
  rw [e, ← List.drop_drop, ← List.drop_drop, h]

/-- The calls of the flush loop, and the rows it leaves alone. -/
theorem flush_blocks_out (kind : SliceKind) (ref : Row) (fuel : Nat) :
    ∀ (s : MeasureRecordBatch) (out : List WriterCall), s.unwritten / 1024 < fuel →
      s.unwritten ≤ s.stored → s.stored ≤ s.storage.rows.length →
      (flush_blocks kind ref fuel s out).2 =
        out ++ (List.range (s.unwritten / 1024)).map (fun i =>
          WriterCall.batch_write_bytes
            ⟨s.storage.num_minor_bits_padded,
              xor_reference s.shot_mask ref (s.written + 1024 * i)
                ((s.storage.rows.drop (s.stored - s.unwritten + 1024 * i)).take 1024)⟩ 16) ∧
      (flush_blocks kind ref fuel s out).1.storage.rows.drop (s.stored - s.unwritten % 1024) =
        s.storage.rows.drop (s.stored - s.unwritten % 1024) := by
  induction fuel with
  | zero => intro s out h; omega
  | succ n ih =>
    intro s out h hu hc
    by_cases hlt : s.unwritten < 1024
    · rw [flush_blocks_stop kind ref _ s out hlt]
      have h0 : s.unwritten / 1024 = 0 := by omega
      simp [h0]
    · have hge : 1024 ≤ s.unwritten := by omega
      rw [flush_blocks_succ kind ref n s out hge]
      obtain ⟨g1, g2, g3, g4, g5, g6, g7⟩ := flush_block_fields kind ref s
      have hd := flush_block_drop kind ref s (by omega)
      have hfuel : (flush_block kind ref s).1.unwritten / 1024 < n := by rw [g4]; omega
      obtain ⟨i1, i2⟩ := ih (flush_block kind ref s).1 (out ++ [(flush_block kind ref s).2])
        hfuel (by rw [g4, g2]; omega) (by rw [g2, g7]; exact hc)
      constructor
      · rw [i1, flush_block_call, g2, g3, g4, g5, g6]
        have hq : s.unwritten / 1024 = (s.unwritten - 1024) / 1024 + 1 := by omega
        rw [hq, List.range_succ_eq_map, List.map_cons, List.map_map, List.append_assoc,
          List.singleton_append]
        refine congrArg (fun l => out ++ l) (congrArg₂ List.cons ?_ ?_)
        · simp only [Nat.mul_zero, Nat.add_zero]
        · apply List.map_congr_left
          intro i _
          simp only [Function.comp, Nat.succ_eq_add_one]
          have e1 : s.written + 1024 + 1024 * i = s.written + 1024 * (i + 1) := by omega
          have e2 : s.stored - (s.unwritten - 1024) + 1024 * i =
              s.stored - s.unwritten + 1024 * (i + 1) := by omega
          rw [e1, e2, drop_eq_of_drop_eq _ _ _ _ hd (by omega)]
      · rw [g2, g4] at i2
        have e3 : (s.unwritten - 1024) % 1024 = s.unwritten % 1024 := by omega
        rw [e3] at i2
        rw [i2]
        exact drop_eq_of_drop_eq _ _ _ _ hd (by omega)

theorem flush_blocks_copy_storage (ref : Row) (fuel : Nat) :
    ∀ (s : MeasureRecordBatch) (out : List WriterCall),
      (flush_blocks .copy ref fuel s out).1.storage = s.storage := by
  induction fuel with
  | zero => intro s out; rfl
  | succ n ih =>
    intro s out
    by_cases hlt : s.unwritten < 1024
    · rw [flush_blocks_stop _ ref _ s out hlt]
    · rw [flush_blocks_succ _ ref n s out (by omega), ih]
      simp only [flush_block]

/-! ## Rows and the shot mask -/

theorem mask_respected_and (mask r : Row) : mask_respected mask (and_assign r mask) := by
  unfold mask_respected
  induction r generalizing mask with
  | nil => simp [and_assign, row_is_zero]
  | cons x xs ih =>
    cases mask with
    | nil => simp [and_assign, row_not, row_is_zero]
    | cons y ys =>
      have := ih ys
      simp only [and_assign, row_not, row_is_zero, List.zipWith_cons_cons, List.map_cons,
        List.all_cons] at this ⊢
      rw [this]
      cases x <;> cases y <;> rfl

theorem mask_respected_xor (mask r : Row) (h : mask_respected mask r) :
    mask_respected mask (xor_assign r mask) := by
  unfold mask_respected at h ⊢
  induction r generalizing mask with
  | nil => simp [xor_assign, and_assign, row_is_zero]
  | cons x xs ih =>
    cases mask with
    | nil => simp [xor_assign, and_assign, row_not, row_is_zero]
    | cons y ys =>
      simp only [xor_assign, and_assign, row_not, row_is_zero, List.zipWith_cons_cons,
        List.map_cons, List.all_cons, Bool.and_eq_true] at h ⊢
      have := ih ys h.2
      simp only [xor_assign, and_assign, row_not, row_is_zero] at this
      refine ⟨?_, this⟩
      have h1 := h.1
      revert h1
      cases x <;> cases y <;> simp

theorem mask_respected_zero (mask : Row) (n : Nat) :
    mask_respected mask (List.replicate n false) := by
  unfold mask_respected
  induction n generalizing mask with
  | zero => simp [and_assign, row_is_zero]
  | succ n ih =>
    cases mask with
    | nil => simp [and_assign, row_not, row_is_zero]
    | cons y ys =>
      have := ih ys
      simp only [and_assign, row_not, row_is_zero, List.replicate_succ, List.zipWith_cons_cons,
        List.map_cons, List.all_cons] at this ⊢
      rw [this]
      rfl

theorem and_assign_length_le (r mask : Row) : (and_assign r mask).length ≤ mask.length := by
  simp only [and_assign, List.length_zipWith]
  exact Nat.min_le_right _ _

theorem xor_assign_length_le (r mask : Row) : (xor_assign r mask).length ≤ mask.length := by
  simp only [xor_assign, List.length_zipWith]
  exact Nat.min_le_right _ _

/-- Every row produced by the reference XOR is a row of the input or such a
row XORed with the mask. -/
theorem mem_xor_reference (mask ref : Row) (rows : List Row) :
    ∀ (j : Nat) (r : Row), r ∈ xor_reference mask ref j rows →
      r ∈ rows ∨ ∃ r0 ∈ rows, r = xor_assign r0 mask := by
  induction rows with
  | nil => intro j r h; simp [xor_reference] at h
  | cons x xs ih =>
    intro j r h
    simp only [xor_reference, List.mem_cons] at h
    rcases h with h | h
    · by_cases hb : ref_bit ref j = true
      · simp only [hb, if_true] at h
        exact Or.inr ⟨x, List.mem_cons_self _ _, h⟩
      · simp only [hb] at h
        exact Or.inl (by simp [h])
    · rcases ih (j + 1) r h with h' | ⟨r0, h0, e⟩
      · exact Or.inl (List.mem_cons_of_mem _ h')
      · exact Or.inr ⟨r0, List.mem_cons_of_mem _ h0, e⟩

/-- A property of rows that the mask XOR keeps holds for every row after one
flush iteration. -/
theorem flush_block_rows (P : Row → Prop) (kind : SliceKind) (ref : Row) (s : MeasureRecordBatch)
    (hx : ∀ r, P r → P (xor_assign r s.shot_mask))
    (h : ∀ r ∈ s.storage.rows, P r) :
    ∀ r ∈ (flush_block kind ref s).1.storage.rows, P r := by
  cases kind
  · simpa only [flush_block] using h
  · intro r hr
    simp only [flush_block, simd_bit_table.write_back, simd_bit_table.slice_maj,
      List.mem_append] at hr
    rcases hr with (hr | hr) | hr
    · exact h r (List.mem_of_mem_take hr)
    · rcases mem_xor_reference _ _ _ _ _ hr with h' | ⟨r0, h0, e⟩
      · exact h r (List.mem_of_mem_drop (List.mem_of_mem_take h'))
      · rw [e]
        exact hx r0 (h r0 (List.mem_of_mem_drop (List.mem_of_mem_take h0)))
    · exact h r (List.mem_of_mem_drop hr)

theorem flush_blocks_rows (P : Row → Prop) (kind : SliceKind) (ref : Row) (fuel : Nat) :
    ∀ (s : MeasureRecordBatch) (out : List WriterCall),
      (∀ r, P r → P (xor_assign r s.shot_mask)) →
      (∀ r ∈ s.storage.rows, P r) →
      ∀ r ∈ (flush_blocks kind ref fuel s out).1.storage.rows, P r := by
  induction fuel with
  | zero => intro s out _ h; exact h
  | succ n ih =>
    intro s out hx h
    by_cases hlt : s.unwritten < 1024
    · rw [flush_blocks_stop kind ref _ s out hlt]; exact h
    · rw [flush_blocks_succ kind ref n s out (by omega)]
      refine ih _ _ ?_ (flush_block_rows P kind ref s hx h)
      rw [(flush_block_fields kind ref s).2.2.1]
      exact hx

theorem memcpy_to_front_rows (P : Row → Prop) (t : simd_bit_table) (src m : Nat)
    (h : ∀ r ∈ t.rows, P r) : ∀ r ∈ (t.memcpy_to_front src m).rows, P r := by
  intro r hr
  simp only [simd_bit_table.memcpy_to_front, List.mem_append] at hr
  rcases hr with hr | hr
  · exact h r (List.mem_of_mem_drop (List.mem_of_mem_take hr))
  · exact h r (List.mem_of_mem_drop hr)

theorem memcpy_to_front_length (t : simd_bit_table) (src m : Nat)
    (h : src + m ≤ t.rows.length) : (t.memcpy_to_front src m).rows.length = t.rows.length := by
  simp only [simd_bit_table.memcpy_to_front, List.length_append, List.length_take,
    List.length_drop]
  omega

theorem intermediate_write_rows (P : Row → Prop) (kind : SliceKind) (ref : Row)
    (s : MeasureRecordBatch)
    (hx : ∀ r, P r → P (xor_assign r s.shot_mask))
    (h : ∀ r ∈ s.storage.rows, P r) :
    ∀ r ∈ (s.intermediate_write_unwritten_results_to kind ref).1.storage.rows, P r := by
  have hf := flush_blocks_rows P kind ref (s.unwritten / 1024 + 1) s [] hx h
  rw [intermediate_write_eq]
  split
  · exact memcpy_to_front_rows P _ _ _ hf
  · exact hf

/-- The table after `record_result`: the old rows, the zero rows of a
doubling when there was one, and the masked result at index `stored`. -/
theorem record_result_storage (s : MeasureRecordBatch) (result : Row)
    (hs : s.stored ≤ s.storage.rows.length) (hpos : 0 < s.storage.rows.length) :
    ∃ extra : List Row,
      (∀ r ∈ extra, r = List.replicate s.storage.num_minor_bits_padded false) ∧
      s.stored < (s.storage.rows ++ extra).length ∧
      (s.record_result result).storage.rows =
        (s.storage.rows ++ extra).set s.stored (and_assign result s.shot_mask) ∧
      (s.record_result result).storage.num_minor_bits_padded =
        s.storage.num_minor_bits_padded := by
  by_cases hfull : s.stored ≥ s.storage.num_major_bits_padded
  · refine ⟨List.replicate s.storage.rows.length
      (List.replicate s.storage.num_minor_bits_padded false), ?_, ?_, ?_, ?_⟩
    · intro r hr
      exact List.eq_of_mem_replicate hr
    · simp only [List.length_append, List.length_replicate]
      omega
    · have hlt : s.stored < (s.storage.doubled).rows.length := by
        simp only [simd_bit_table.doubled, simd_bit_table.zeros, List.length_append,
          List.length_drop, List.length_replicate, simd_bit_table.num_major_bits_padded]
        omega
      simp only [record_result, hfull, if_true]
      rw [row_set_row _ _ _ hlt]
      simp only [simd_bit_table.set_row, List.set_set]
      simp only [simd_bit_table.doubled, simd_bit_table.zeros, List.drop_replicate,
        simd_bit_table.num_major_bits_padded]
      have e : s.storage.rows.length * 2 - s.storage.rows.length = s.storage.rows.length := by
        omega
      rw [e]
    · simp only [record_result, hfull, if_true, simd_bit_table.set_row,
        simd_bit_table.doubled, simd_bit_table.zeros]
  · have hlt : s.stored < s.storage.rows.length := by
      simp only [simd_bit_table.num_major_bits_padded] at hfull
      omega
    refine ⟨[], ?_, ?_, ?_, ?_⟩
    · intro r hr; simp at hr
    · simpa using hlt
    · simp only [record_result, hfull, if_false]
      rw [row_set_row _ _ _ hlt]
      simp only [simd_bit_table.set_row, List.set_set, List.append_nil]
    · simp only [record_result, hfull, if_false, simd_bit_table.set_row]

theorem record_result_rows (P : Row → Prop) (s : MeasureRecordBatch) (result : Row)
    (hz : P (List.replicate s.storage.num_minor_bits_padded false))
    (hr : P (and_assign result s.shot_mask))
    (h : ∀ r ∈ s.storage.rows, P r) (hs : s.stored ≤ s.storage.rows.length)
    (hpos : 0 < s.storage.rows.length) :
    ∀ r ∈ (s.record_result result).storage.rows, P r := by
  obtain ⟨extra, h1, _, h3, _⟩ := record_result_storage s result hs hpos
  intro r hmem
  rw [h3] at hmem
  rcases List.mem_or_eq_of_mem_set hmem with h' | h'
  · rcases List.mem_append.mp h' with h'' | h''
    · exact h r h''
    · rw [h1 r h'']; exact hz
  · rw [h']; exact hr

theorem take_set_succ {α : Type} (l : List α) (k : Nat) (x : α) (hk : k < l.length) :
    (l.set k x).take (k + 1) = l.take k ++ [x] := by
  induction l generalizing k with
  | nil => simp at hk
  | cons y ys ih =>
    cases k with
    | zero => simp
    | succ n =>
      simp only [List.length_cons, Nat.add_lt_add_iff_right] at hk
      simp [ih n hk]

/-- The record (the first `stored` rows) after `record_result`. -/
theorem record_result_take (s : MeasureRecordBatch) (result : Row)
    (hs : s.stored ≤ s.storage.rows.length) (hpos : 0 < s.storage.rows.length) :
    (s.record_result result).storage.rows.take (s.stored + 1) =
      s.storage.rows.take s.stored ++ [and_assign result s.shot_mask] ∧
    s.stored + 1 ≤ (s.record_result result).storage.rows.length := by
  obtain ⟨extra, _, h2, h3, _⟩ := record_result_storage s result hs hpos
  rw [h3, take_set_succ _ _ _ h2, List.take_append_of_le_length hs]
  refine ⟨rfl, ?_⟩
  rw [List.length_set]
  omega

theorem tail_snoc {α : Type} (T hist : List α) (x : α) (a u : Nat) (hT : T.length = a)
    (hu : u ≤ a) (hh : u ≤ hist.length)
    (h : T.drop (a - u) = hist.drop (hist.length - u)) :
    (T ++ [x]).drop (a + 1 - (u + 1)) = (hist ++ [x]).drop ((hist ++ [x]).length - (u + 1)) := by
  have e1 : a + 1 - (u + 1) = a - u := by omega
  have e2 : (hist ++ [x]).length - (u + 1) = hist.length - u := by
    simp only [List.length_append, List.length_singleton]; omega
  rw [e1, e2, List.drop_append_of_le_length (by omega), List.drop_append_of_le_length (by omega),
    h]

theorem drop_take_nil {α : Type} (l : List α) (n : Nat) : (l.take n).drop (n - 0) = [] := by
  apply List.drop_eq_nil_of_le
  simp only [List.length_take, Nat.sub_zero]
  exact Nat.min_le_left _ _

/-- The record after a compaction that keeps `m` rows. -/
theorem compaction_take (l : List Row) (a m : Nat) (hm : m ≤ a) (ha : a ≤ l.length) :
    ((l.drop (a - m)).take m ++ l.drop m).take m = (l.take a).drop (a - m) := by
  have hlen : ((l.drop (a - m)).take m).length = m := by
    simp only [List.length_take, List.length_drop]; omega
  rw [List.take_append_of_le_length (by omega), List.take_of_length_le (by omega),
    List.drop_take]
  have e : a - (a - m) = m := by omega
  rw [e]

theorem inv_record_result {mask : Row} {s : MeasureRecordBatch} {hist : List Row}
    (h : Inv mask s hist) (result : Row) :
    Inv mask (s.record_result result) (hist ++ [and_assign result mask]) := by
  obtain ⟨ht, hl⟩ := record_result_take s result h.s_le h.cap_pos
  obtain ⟨extra, _, _, _, hminor⟩ := record_result_storage s result h.s_le h.cap_pos
  have hm := h.mask_eq
  refine ⟨hm, by omega, ?_, hl, ?_, ?_, ?_, ?_, ?_⟩
  · show s.unwritten + 1 ≤ s.stored + 1
    have := h.u_le; omega
  · rw [hminor]; exact h.minor_le
  · apply record_result_rows (fun r => r.length ≤ mask.length) s result _ _ h.width h.s_le
      h.cap_pos
    · simp only [List.length_replicate]; exact h.minor_le
    · rw [hm]; exact and_assign_length_le _ _
  · apply record_result_rows (mask_respected mask) s result _ _ h.masked h.s_le h.cap_pos
    · exact mask_respected_zero _ _
    · rw [hm]; exact mask_respected_and _ _
  · show s.written + (s.unwritten + 1) ≤ (hist ++ [and_assign result mask]).length
    have := h.count
    simp only [List.length_append, List.length_singleton]; omega
  · show ((s.record_result result).storage.rows.take (s.stored + 1)).drop
        (s.stored + 1 - (s.unwritten + 1)) = _
    rw [ht, hm]
    have hc := h.count
    refine tail_snoc _ _ _ _ _ ?_ h.u_le (by omega) h.tail
    simp only [List.length_take]
    have := h.s_le
    omega

theorem inv_mark_all_as_written {mask : Row} {s : MeasureRecordBatch} {hist : List Row}
    (h : Inv mask s hist) : Inv mask s.mark_all_as_written hist := by
  rw [mark_all_as_written_eq]
  have hs := h.s_le
  split
  · rename_i hc
    have hlen := memcpy_to_front_length s.storage (s.stored - s.max_lookback) s.max_lookback
      (by omega)
    refine ⟨h.mask_eq, ?_, Nat.zero_le _, ?_, h.minor_le, ?_, ?_, ?_, ?_⟩
    · show 0 < (s.storage.memcpy_to_front _ _).rows.length
      rw [hlen]; exact h.cap_pos
    · show s.max_lookback ≤ (s.storage.memcpy_to_front _ _).rows.length
      rw [hlen]; omega
    · exact memcpy_to_front_rows _ _ _ _ h.width
    · exact memcpy_to_front_rows _ _ _ _ h.masked
    · have := h.count
      show s.written + 0 ≤ hist.length
      omega
    · show (List.take _ _).drop (_ - 0) = hist.drop (hist.length - 0)
      rw [drop_take_nil]
      simp
  · refine ⟨h.mask_eq, h.cap_pos, Nat.zero_le _, h.s_le, h.minor_le, h.width, h.masked, ?_, ?_⟩
    · have := h.count
      show s.written + 0 ≤ hist.length
      omega
    · show (List.take _ _).drop (_ - 0) = hist.drop (hist.length - 0)
      rw [drop_take_nil]
      simp

theorem inv_clear {mask : Row} {s : MeasureRecordBatch} {hist : List Row}
    (h : Inv mask s hist) : Inv mask s.clear hist := by
  refine ⟨h.mask_eq, h.cap_pos, Nat.le_refl _, Nat.zero_le _, h.minor_le, h.width, h.masked,
    ?_, ?_⟩
  · have := h.count
    show s.written + 0 ≤ hist.length
    omega
  · show (List.take 0 _).drop (0 - 0) = hist.drop (hist.length - 0)
    simp

theorem inv_final_write {mask : Row} {s : MeasureRecordBatch} {hist : List Row}
    (h : Inv mask s hist) (ref : Row) :
    Inv mask (s.final_write_unwritten_results_to ref).1 hist := by
  have hw : ∀ r ∈ s.storage.rows, r.length ≤ s.shot_mask.length := by
    rw [h.mask_eq]; exact h.width
  rw [final_write_eq s ref h.u_le hw]
  refine ⟨h.mask_eq, h.cap_pos, Nat.zero_le _, h.s_le, h.minor_le, h.width, h.masked, ?_, ?_⟩
  · have := h.count
    show s.written + s.unwritten + 0 ≤ hist.length
    omega
  · show (List.take _ _).drop (_ - 0) = hist.drop (hist.length - 0)
    rw [drop_take_nil]
    simp


theorem drop_take_eq_of_drop_eq {α : Type} (l1 l2 : List α) (a n : Nat)
    (h : l1.drop n = l2.drop n) : (l1.take a).drop n = (l2.take a).drop n := by
  rw [List.drop_take, List.drop_take, h]

theorem inv_intermediate_write {mask : Row} {s : MeasureRecordBatch} {hist : List Row}
    (h : Inv mask s hist) (kind : SliceKind) (ref : Row) :
    Inv mask (s.intermediate_write_unwritten_results_to kind ref).1 hist := by
  have hu := h.u_le
  have hs := h.s_le
  have hcount := h.count
  obtain ⟨f1, f2, f3, f4, f5, f6, f7, -⟩ :=
    flush_blocks_fields kind ref (s.unwritten / 1024 + 1) s [] (Nat.lt_succ_self _)
  obtain ⟨-, ftail⟩ :=
    flush_blocks_out kind ref (s.unwritten / 1024 + 1) s [] (Nat.lt_succ_self _) hu hs
  have hx1 : ∀ r : Row, r.length ≤ mask.length → (xor_assign r s.shot_mask).length ≤ mask.length := by
    intro r _
    rw [h.mask_eq]; exact xor_assign_length_le _ _
  have hx2 : ∀ r : Row, mask_respected mask r → mask_respected mask (xor_assign r s.shot_mask) := by
    intro r hr
    rw [h.mask_eq]; exact mask_respected_xor _ _ hr
  have hw := flush_blocks_rows (fun r => r.length ≤ mask.length) kind ref
    (s.unwritten / 1024 + 1) s [] hx1 h.width
  have hmk := flush_blocks_rows (mask_respected mask) kind ref
    (s.unwritten / 1024 + 1) s [] hx2 h.masked
  -- the tail of unwritten rows after the loop
  have htail1 : ((flush_blocks kind ref (s.unwritten / 1024 + 1) s []).1.storage.rows.take
      s.stored).drop (s.stored - s.unwritten % 1024) =
      hist.drop (hist.length - s.unwritten % 1024) := by
    rw [drop_take_eq_of_drop_eq _ _ _ _ ftail]
    have e1 : s.stored - s.unwritten % 1024 =
        (s.stored - s.unwritten) + (s.unwritten - s.unwritten % 1024) := by
      have := Nat.mod_le s.unwritten 1024
      omega
    have e2 : hist.length - s.unwritten % 1024 =
        (hist.length - s.unwritten) + (s.unwritten - s.unwritten % 1024) := by
      have := Nat.mod_le s.unwritten 1024
      omega
    rw [e1, e2, ← List.drop_drop, ← List.drop_drop, h.tail]
  rw [intermediate_write_eq, f2]
  split
  · rename_i hc
    have hm : max s.max_lookback (s.unwritten % 1024) ≤ s.stored := by omega
    have hlen := memcpy_to_front_length (flush_blocks kind ref (s.unwritten / 1024 + 1) s []).1.storage
      (s.stored - max s.max_lookback (s.unwritten % 1024))
      (max s.max_lookback (s.unwritten % 1024)) (by rw [f7]; omega)
    refine ⟨f3.trans h.mask_eq, ?_, ?_, ?_, ?_, ?_, ?_, ?_, ?_⟩
    · show 0 < (simd_bit_table.memcpy_to_front _ _ _).rows.length
      rw [hlen, f7]; exact h.cap_pos
    · show (flush_blocks kind ref (s.unwritten / 1024 + 1) s []).1.unwritten ≤
        max s.max_lookback (s.unwritten % 1024)
      rw [f4]; exact Nat.le_max_right _ _
    · show max s.max_lookback (s.unwritten % 1024) ≤
        (simd_bit_table.memcpy_to_front _ _ _).rows.length
      rw [hlen, f7]; omega
    · show (flush_blocks kind ref (s.unwritten / 1024 + 1) s []).1.storage.num_minor_bits_padded ≤ _
      rw [f6]; exact h.minor_le
    · exact memcpy_to_front_rows _ _ _ _ hw
    · exact memcpy_to_front_rows _ _ _ _ hmk
    · show (flush_blocks kind ref (s.unwritten / 1024 + 1) s []).1.written +
        (flush_blocks kind ref (s.unwritten / 1024 + 1) s []).1.unwritten ≤ hist.length
      rw [f4, f5]; omega
    · show (List.take (max s.max_lookback (s.unwritten % 1024))
          (simd_bit_table.memcpy_to_front _ _ _).rows).drop
          (max s.max_lookback (s.unwritten % 1024) -
            (flush_blocks kind ref (s.unwritten / 1024 + 1) s []).1.unwritten) =
        hist.drop (hist.length - (flush_blocks kind ref (s.unwritten / 1024 + 1) s []).1.unwritten)
      rw [f4]
      simp only [simd_bit_table.memcpy_to_front]
      rw [compaction_take _ _ _ hm (by rw [f7]; exact hs), List.drop_drop, ← htail1]
      congr 1
      have := Nat.le_max_right s.max_lookback (s.unwritten % 1024)
      omega
  · refine ⟨f3.trans h.mask_eq, ?_, ?_, ?_, ?_, hw, hmk, ?_, ?_⟩
    · rw [f7]; exact h.cap_pos
    · rw [f4, f2]
      have := Nat.mod_le s.unwritten 1024
      omega
    · rw [f2, f7]; exact hs
    · rw [f6]; exact h.minor_le
    · rw [f4, f5]; omega
    · rw [f2, f4]; exact htail1


theorem inv_copy_compact {s : MeasureRecordBatch} {hist : List Row} (hc : InvCopy s hist)
    (m : Nat) (hm : m ≤ s.stored) (hs : s.stored ≤ s.storage.rows.length) :
    ((s.storage.memcpy_to_front (s.stored - m) m).rows.take m) = hist.drop (hist.length - m) := by
  simp only [simd_bit_table.memcpy_to_front]
  rw [compaction_take _ _ _ hm hs, hc.full, List.drop_drop]
  congr 1
  have := hc.s_hist
  omega

theorem inv_copy_step {mask : Row} {s : MeasureRecordBatch} {hist : List Row}
    (h : Inv mask s hist) (hc : InvCopy s hist) (op : Op) :
    InvCopy (step .copy s op) (hist ++ appended_by mask op) := by
  have hs := h.s_le
  have hsh := hc.s_hist
  cases op with
  | record_result result =>
    obtain ⟨ht, _⟩ := record_result_take s result h.s_le h.cap_pos
    refine ⟨?_, ?_⟩
    · show s.stored + 1 ≤ (hist ++ [and_assign result mask]).length
      simp only [List.length_append, List.length_singleton]; omega
    · show (s.record_result result).storage.rows.take (s.stored + 1) =
        (hist ++ [and_assign result mask]).drop
          ((hist ++ [and_assign result mask]).length - (s.stored + 1))
      rw [ht, hc.full, h.mask_eq]
      have e : (hist ++ [and_assign result mask]).length - (s.stored + 1) =
          hist.length - s.stored := by
        simp only [List.length_append, List.length_singleton]; omega
      rw [e, List.drop_append_of_le_length (by omega)]
  | mark_all_as_written =>
    simp only [step, appended_by, List.append_nil]
    rw [mark_all_as_written_eq]
    split
    · rename_i hcond
      exact ⟨by show s.max_lookback ≤ hist.length; omega,
        inv_copy_compact hc s.max_lookback (by omega) hs⟩
    · exact ⟨hsh, hc.full⟩
  | intermediate_write ref =>
    simp only [step, appended_by, List.append_nil]
    obtain ⟨-, f2, -⟩ :=
      flush_blocks_fields .copy ref (s.unwritten / 1024 + 1) s [] (Nat.lt_succ_self _)
    have fst := flush_blocks_copy_storage ref (s.unwritten / 1024 + 1) s []
    rw [intermediate_write_eq, f2]
    split
    · rename_i hcond
      refine ⟨?_, ?_⟩
      · show max s.max_lookback (s.unwritten % 1024) ≤ hist.length
        omega
      · show List.take (max s.max_lookback (s.unwritten % 1024))
          (simd_bit_table.memcpy_to_front _ _ _).rows = _
        rw [fst]
        exact inv_copy_compact hc _ (by omega) hs
    · refine ⟨?_, ?_⟩
      · rw [f2]; exact hsh
      · rw [f2, fst]; exact hc.full
  | final_write ref =>
    simp only [step, appended_by, List.append_nil]
    have hw : ∀ r ∈ s.storage.rows, r.length ≤ s.shot_mask.length := by
      rw [h.mask_eq]; exact h.width
    rw [final_write_eq s ref h.u_le hw]
    exact ⟨hsh, hc.full⟩
  | clear =>
    simp only [step, appended_by, List.append_nil]
    refine ⟨Nat.zero_le _, ?_⟩
    show List.take 0 _ = hist.drop (hist.length - 0)
    simp

theorem inv_step {mask : Row} {s : MeasureRecordBatch} {hist : List Row}
    (h : Inv mask s hist) (kind : SliceKind) (op : Op) :
    Inv mask (step kind s op) (hist ++ appended_by mask op) := by
  cases op with
  | record_result result => exact inv_record_result h result
  | mark_all_as_written =>
    simp only [step, appended_by, List.append_nil]; exact inv_mark_all_as_written h
  | intermediate_write ref =>
    simp only [step, appended_by, List.append_nil]; exact inv_intermediate_write h kind ref
  | final_write ref =>
    simp only [step, appended_by, List.append_nil]; exact inv_final_write h ref
  | clear => simp only [step, appended_by, List.append_nil]; exact inv_clear h

theorem run_snoc (kind : SliceKind) (ops : List Op) (op : Op) (s : MeasureRecordBatch) :
    run kind (ops ++ [op]) s = step kind (run kind ops s) op := by
  simp [run, List.foldl_append]

theorem appended_rows_snoc (mask : Row) (ops : List Op) (op : Op) :
    appended_rows mask (ops ++ [op]) = appended_rows mask ops ++ appended_by mask op := by
  cases op <;> simp [appended_rows, recorded_args, appended_by, List.filterMap_append]

theorem inv_init (W num_shots max_lookback : Nat) (hW : 0 < W) :
    Inv (init W num_shots max_lookback).shot_mask (init W num_shots max_lookback) [] := by
  have hp := padded_bits_ge W num_shots hW
  have hp1 := padded_bits_ge W 1 hW
  have hmask : (MeasureRecordBatch.init W num_shots max_lookback).shot_mask.length =
      padded_bits W num_shots := by
    simp only [MeasureRecordBatch.init, List.length_append, List.length_replicate]
    omega
  refine ⟨rfl, ?_, Nat.le_refl _, Nat.zero_le _, ?_, ?_, ?_, Nat.le_refl _, ?_⟩
  · simp only [MeasureRecordBatch.init, simd_bit_table.create, simd_bit_table.zeros,
      List.length_replicate]
    omega
  · rw [hmask]
    exact Nat.le_refl _
  · intro r hr
    rw [hmask]
    simp only [MeasureRecordBatch.init, simd_bit_table.create, simd_bit_table.zeros] at hr
    rw [List.eq_of_mem_replicate hr]
    simp
  · intro r hr
    simp only [MeasureRecordBatch.init, simd_bit_table.create, simd_bit_table.zeros] at hr
    rw [List.eq_of_mem_replicate hr]
    exact mask_respected_zero _ _
  · show (List.take 0 _).drop (0 - 0) = ([] : List Row).drop _
    simp

/-- Both invariants hold after every sequence of calls. -/
theorem inv_run (kind : SliceKind) (W num_shots max_lookback : Nat) (hW : 0 < W)
    (ops : List Op) :
    Inv (init W num_shots max_lookback).shot_mask
      (run kind ops (init W num_shots max_lookback))
      (appended_rows (init W num_shots max_lookback).shot_mask ops) := by
  induction ops using List.reverseRecOn with
  | nil => exact inv_init W num_shots max_lookback hW
  | append_singleton l a ih =>
    rw [run_snoc, appended_rows_snoc]
    exact inv_step ih kind a

theorem inv_copy_run (W num_shots max_lookback : Nat) (hW : 0 < W) (ops : List Op) :
    InvCopy (run .copy ops (init W num_shots max_lookback))
      (appended_rows (init W num_shots max_lookback).shot_mask ops) := by
  induction ops using List.reverseRecOn with
  | nil => exact ⟨Nat.le_refl _, by show List.take 0 _ = _; simp [appended_rows, recorded_args]⟩
  | append_singleton l a ih =>
    rw [run_snoc, appended_rows_snoc]
    exact inv_copy_step (inv_run .copy W num_shots max_lookback hW l) ih a

/-! ## Lookback -/

/-- C2: `lookback(k)` throws exactly when `k == 0`, `k > stored` or
`k > max_lookback`, and in every other case it succeeds and returns the stored
row at index `stored - k`.  The method is `const`: the embedding is a function
of the record that yields no new record, so no field changes. -/
theorem lookback_fails_iff (s : MeasureRecordBatch) (k : Nat) :
    ((∃ msg, s.lookback k = .error msg) ↔ (k = 0 ∨ k > s.stored ∨ k > s.max_lookback)) ∧
    ((∃ r, s.lookback k = .ok r) ↔ ¬ (k = 0 ∨ k > s.stored ∨ k > s.max_lookback)) ∧
    (s.lookback k).toOption =
      if k = 0 ∨ k > s.stored ∨ k > s.max_lookback then none
      else some (s.storage.row (s.stored - k)) := by
  unfold lookback
  by_cases h1 : k > s.stored
  · simp [h1, Except.toOption]
  · by_cases h2 : k = 0
    · simp [h2, Except.toOption]
    · by_cases h3 : k > s.max_lookback
      · simp [h1, h2, h3, Except.toOption]
      · simp [h1, h2, h3, Except.toOption]

/-! ## The shot mask -/

/-- C3: in every state reached from construction by any sequence of the five
calls, with arbitrary recorded rows and arbitrary reference samples, every
row of the record (index below `stored`) satisfies
`r AND NOT shot_mask == 0`; this holds for either kind of slice. -/
theorem shot_mask_respected (W num_shots max_lookback : Nat) (hW : 0 < W) (kind : SliceKind)
    (ops : List Op) (i : Nat)
    (hi : i < (run kind ops (init W num_shots max_lookback)).stored) :
    row_is_zero
      (and_assign ((run kind ops (init W num_shots max_lookback)).storage.row i)
        (row_not (run kind ops (init W num_shots max_lookback)).shot_mask)) = true := by
  have h := inv_run kind W num_shots max_lookback hW ops
  rw [h.mask_eq]
  have hlt : i < (run kind ops (init W num_shots max_lookback)).storage.rows.length :=
    Nat.lt_of_lt_of_le hi h.s_le
  apply h.masked
  unfold simd_bit_table.row
  rw [List.getD_eq_getElem _ _ hlt]
  exact List.getElem_mem _

theorem shot_mask_respected_witness :
    0 < 64 ∧
    row_is_zero
      (and_assign
        ((run .view [.record_result (List.replicate 64 true), .final_write [true]]
          (init 64 3 5)).storage.row 0)
        (row_not (run .view [.record_result (List.replicate 64 true), .final_write [true]]
          (init 64 3 5)).shot_mask)) = true :=
  ⟨by decide, shot_mask_respected 64 3 5 (by decide) .view
    [.record_result (List.replicate 64 true), .final_write [true]] 0 (by decide)⟩

/-! ## Monotonicity -/

/-- C5, counterexample: with `max_lookback = 0`, two recorded rows and then
`mark_all_as_written`, the compaction lowers `stored` from 2 to 0. -/
theorem stored_decreases_on_compaction :
    ¬ ((run .copy [.record_result [true], .record_result [true]] (init 64 1 0)).stored ≤
      (run .copy [.record_result [true], .record_result [true]]
        (init 64 1 0)).mark_all_as_written.stored) := by
  decide

/-- C5, amended: `written` never decreases under any of the four calls and
`stored` never decreases under `record_result` and the final write;
`mark_all_as_written` and the intermediate write set `stored` to `m` (which is
`max_lookback`, respectively `max(max_lookback, unwritten mod 1024)`) when
`floor(stored / 2) > m`, and leave it unchanged otherwise. -/
theorem written_monotone_stored_compacts (kind : SliceKind) (s : MeasureRecordBatch)
    (result ref : Row) :
    (s.written ≤ (s.record_result result).written ∧
      s.stored ≤ (s.record_result result).stored) ∧
    (s.written ≤ s.mark_all_as_written.written ∧
      s.mark_all_as_written.stored =
        if s.stored / 2 > s.max_lookback then s.max_lookback else s.stored) ∧
    (s.written ≤ (s.intermediate_write_unwritten_results_to kind ref).1.written ∧
      (s.intermediate_write_unwritten_results_to kind ref).1.stored =
        if s.stored / 2 > max s.max_lookback (s.unwritten % 1024) then
          max s.max_lookback (s.unwritten % 1024)
        else s.stored) ∧
    (s.written ≤ (s.final_write_unwritten_results_to ref).1.written ∧
      s.stored ≤ (s.final_write_unwritten_results_to ref).1.stored) := by
  obtain ⟨-, -, -, i4, i5, -⟩ := intermediate_write_fields kind s ref
  obtain ⟨-, -, -, f4, f5, -⟩ := final_write_fields s ref
  refine ⟨⟨Nat.le_refl _, Nat.le_succ _⟩, ⟨?_, ?_⟩, ⟨?_, i5⟩, ⟨?_, ?_⟩⟩
  · rw [mark_all_as_written_eq]; split <;> exact Nat.le_refl _
  · rw [mark_all_as_written_eq]; split <;> rfl
  · rw [i4]; exact Nat.le_add_right _ _
  · rw [f4]; exact Nat.le_add_right _ _
  · rw [f5]

/-! ## Compaction in `mark_all_as_written` -/

/-- C9, counterexample: with `max_lookback = 0` and one stored row, over half
of the stored rows are old (`2 * (stored - max_lookback) > stored`), yet
`mark_all_as_written` does not compact: `stored` stays 1. -/
theorem mark_all_as_written_keeps_single_row :
    2 * ((run .copy [.record_result [true]] (init 64 1 0)).stored -
        (run .copy [.record_result [true]] (init 64 1 0)).max_lookback) >
      (run .copy [.record_result [true]] (init 64 1 0)).stored ∧
    (run .copy [.record_result [true]] (init 64 1 0)).mark_all_as_written.stored ≠
      (run .copy [.record_result [true]] (init 64 1 0)).max_lookback := by
  decide

theorem memcpy_to_front_row (t : simd_bit_table) (src m i : Nat) (hi : i < m)
    (h : src + m ≤ t.rows.length) : (t.memcpy_to_front src m).row i = t.row (src + i) := by
  simp only [simd_bit_table.memcpy_to_front, simd_bit_table.row, List.getD_eq_getElem?_getD]
  have hlen : ((t.rows.drop src).take m).length = m := by
    simp only [List.length_take, List.length_drop]; omega
  rw [List.getElem?_append_left (by omega), List.getElem?_take_of_lt hi, List.getElem?_drop]

/-- C9, amended: `mark_all_as_written` resets `unwritten` to 0 and leaves
`written` unchanged, and it compacts exactly when `floor(stored / 2) >
max_lookback`, that is when `stored ≥ 2 * max_lookback + 2`: then `stored`
becomes `max_lookback` and the newest `max_lookback` rows are kept in the same
order at the indices `0 .. max_lookback - 1`; in every other case `stored` and
the whole table are unchanged. -/
theorem mark_all_as_written_compacts (s : MeasureRecordBatch)
    (hs : s.stored ≤ s.storage.num_major_bits_padded) :
    s.mark_all_as_written.unwritten = 0 ∧
    s.mark_all_as_written.written = s.written ∧
    (2 * s.max_lookback + 2 ≤ s.stored →
      s.mark_all_as_written.stored = s.max_lookback ∧
      ∀ i, i < s.max_lookback →
        s.mark_all_as_written.storage.row i = s.storage.row (s.stored - s.max_lookback + i)) ∧
    (¬ 2 * s.max_lookback + 2 ≤ s.stored →
      s.mark_all_as_written.stored = s.stored ∧
      s.mark_all_as_written.storage = s.storage) := by
  rw [mark_all_as_written_eq]
  by_cases hc : s.stored / 2 > s.max_lookback
  · simp only [hc, if_true]
    refine ⟨trivial, trivial, ?_, ?_⟩
    · intro _
      refine ⟨trivial, ?_⟩
      intro i hi
      exact memcpy_to_front_row _ _ _ _ hi (by
        simp only [simd_bit_table.num_major_bits_padded] at hs; omega)
    · intro hn
      omega
  · simp only [hc, if_false]
    refine ⟨trivial, trivial, ?_, ?_⟩
    · intro hn
      omega
    · intro _
      exact ⟨trivial, trivial⟩

theorem mark_all_as_written_compacts_witness :
    (run .copy [.record_result [true], .record_result [false], .record_result [true],
        .record_result [true]] (init 64 1 1)).stored ≤
      (run .copy [.record_result [true], .record_result [false], .record_result [true],
        .record_result [true]] (init 64 1 1)).storage.num_major_bits_padded ∧
    (run .copy [.record_result [true], .record_result [false], .record_result [true],
        .record_result [true]] (init 64 1 1)).mark_all_as_written.stored = 1 :=
  ⟨by decide,
    ((mark_all_as_written_compacts
      (run .copy [.record_result [true], .record_result [false], .record_result [true],
        .record_result [true]] (init 64 1 1)) (by decide)).2.2.1 (by decide)).1⟩

/-! ## Safety of the index computations -/

/-- C10: in every state reached from construction by any sequence of the five
calls, `unwritten ≤ stored ≤` the row capacity of storage, so `stored -
unwritten` does not underflow; after `record_result` (one doubling at most,
the capacity is the old one or twice the old one) the index `stored` written
to is inside the table; and whenever a compaction copy runs
(`floor(stored / 2) > m`, with `m = max_lookback` in `mark_all_as_written` and
`m = max(max_lookback, unwritten mod 1024)` in the intermediate write) its
source rows `[stored - m, stored)` lie inside the stored rows and do not
overlap its destination rows `[0, m)`. -/
theorem storage_indices_safe (W num_shots max_lookback : Nat) (hW : 0 < W) (kind : SliceKind)
    (ops : List Op) (result : Row) :
    (run kind ops (init W num_shots max_lookback)).unwritten ≤
      (run kind ops (init W num_shots max_lookback)).stored ∧
    (run kind ops (init W num_shots max_lookback)).stored ≤
      (run kind ops (init W num_shots max_lookback)).storage.num_major_bits_padded ∧
    (((run kind ops (init W num_shots max_lookback)).record_result
        result).storage.num_major_bits_padded =
      (if (run kind ops (init W num_shots max_lookback)).stored ≥
          (run kind ops (init W num_shots max_lookback)).storage.num_major_bits_padded then
        (run kind ops (init W num_shots max_lookback)).storage.num_major_bits_padded * 2
       else (run kind ops (init W num_shots max_lookback)).storage.num_major_bits_padded) ∧
      (run kind ops (init W num_shots max_lookback)).stored <
        ((run kind ops (init W num_shots max_lookback)).record_result
          result).storage.num_major_bits_padded) ∧
    (∀ m, (m = (run kind ops (init W num_shots max_lookback)).max_lookback ∨
          m = max (run kind ops (init W num_shots max_lookback)).max_lookback
            ((run kind ops (init W num_shots max_lookback)).unwritten % 1024)) →
        (run kind ops (init W num_shots max_lookback)).stored >>> 1 > m →
        m ≤ (run kind ops (init W num_shots max_lookback)).stored ∧
        m ≤ (run kind ops (init W num_shots max_lookback)).stored - m ∧
        (run kind ops (init W num_shots max_lookback)).stored - m + m ≤
          (run kind ops (init W num_shots max_lookback)).storage.num_major_bits_padded) := by
  have h := inv_run kind W num_shots max_lookback hW ops
  generalize run kind ops (init W num_shots max_lookback) = s at h ⊢
  have hu := h.u_le
  have hs := h.s_le
  have hp := h.cap_pos
  simp only [simd_bit_table.num_major_bits_padded]
  refine ⟨hu, hs, ⟨?_, ?_⟩, ?_⟩
  · by_cases hfull : s.stored ≥ s.storage.rows.length
    · simp only [record_result, simd_bit_table.num_major_bits_padded, hfull, if_true,
        simd_bit_table.set_row, simd_bit_table.doubled, simd_bit_table.zeros,
        List.length_set, List.length_append, List.length_drop, List.length_replicate]
      omega
    · simp only [record_result, simd_bit_table.num_major_bits_padded, hfull, if_false,
        simd_bit_table.set_row, List.length_set]
  · exact Nat.lt_of_lt_of_le (Nat.lt_succ_self _) (record_result_take s result hs hp).2
  · intro m _ hm
    rw [shr_one] at hm
    omega

theorem storage_indices_safe_witness :
    0 < 64 ∧
    (run .view [.record_result [true], .record_result [false], .mark_all_as_written,
        .record_result [true]] (init 64 1 0)).unwritten ≤
      (run .view [.record_result [true], .record_result [false], .mark_all_as_written,
        .record_result [true]] (init 64 1 0)).stored :=
  ⟨by decide,
    (storage_indices_safe 64 1 0 (by decide) .view
      [.record_result [true], .record_result [false], .mark_all_as_written,
        .record_result [true]] []).1⟩

/-! ## The final write -/

/-- C8: the final write hands each unwritten row (indices `stored - unwritten
.. stored - 1`, oldest first) to `batch_write_bit` exactly once, XORed with
`shot_mask` when its reference bit is set, then calls `write_end` once;
afterwards `unwritten = 0`, `written` has grown by the former `unwritten`, and
every other field, among them `stored`, `shot_mask` and the whole table, is as
before, the XOR on a row being undone after the row is written. -/
theorem final_write_emits_unwritten_rows (s : MeasureRecordBatch) (ref_sample : Row)
    (hu : s.unwritten ≤ s.stored)
    (hw : ∀ r ∈ s.storage.rows, r.length ≤ s.shot_mask.length) :
    (s.final_write_unwritten_results_to ref_sample).2 =
      (List.range s.unwritten).map (fun i =>
        WriterCall.batch_write_bit
          (if ref_bit ref_sample (s.written + i) then
            xor_assign (s.storage.row (s.stored - s.unwritten + i)) s.shot_mask
           else s.storage.row (s.stored - s.unwritten + i))) ++ [WriterCall.write_end] ∧
    (s.final_write_unwritten_results_to ref_sample).1 =
      { s with unwritten := 0, written := s.written + s.unwritten } := by
  rw [final_write_eq s ref_sample hu hw]
  exact ⟨rfl, rfl⟩

theorem final_write_emits_unwritten_rows_witness :
    ((run .copy [.record_result [true, false], .record_result [true, true]]
        (init 2 2 1)).final_write_unwritten_results_to [false, true]).2 =
      [WriterCall.batch_write_bit [true, false], WriterCall.batch_write_bit [false, false],
        WriterCall.write_end] ∧
    ((run .copy [.record_result [true, false], .record_result [true, true]]
        (init 2 2 1)).final_write_unwritten_results_to [false, true]).1 =
      { run .copy [.record_result [true, false], .record_result [true, true]] (init 2 2 1) with
        unwritten := 0, written := 2 } :=
  final_write_emits_unwritten_rows
    (run .copy [.record_result [true, false], .record_result [true, true]] (init 2 2 1))
    [false, true] (by decide) (by decide)

/-- The bounds that every reachable record satisfies. -/
theorem reachable_bounds (kind : SliceKind) (W num_shots max_lookback : Nat) (hW : 0 < W)
    (ops : List Op) :
    (run kind ops (init W num_shots max_lookback)).unwritten ≤
      (run kind ops (init W num_shots max_lookback)).stored ∧
    (run kind ops (init W num_shots max_lookback)).stored ≤
      (run kind ops (init W num_shots max_lookback)).storage.num_major_bits_padded ∧
    ∀ r ∈ (run kind ops (init W num_shots max_lookback)).storage.rows,
      r.length ≤ (run kind ops (init W num_shots max_lookback)).shot_mask.length := by
  have h := inv_run kind W num_shots max_lookback hW ops
  refine ⟨h.u_le, h.s_le, ?_⟩
  rw [h.mask_eq]
  exact h.width

/-! ## The intermediate write -/

/-- C7: the intermediate write flushes only full 1024-row blocks.  With
`unwritten = u` it calls `batch_write_bytes` exactly `floor(u / 1024)` times
and nothing else; call `i` carries the 1024 consecutive rows that start at
index `stored - u + 1024 * i` (oldest unwritten first), after the reference
XOR, with `1024 >> 6 = 16` words; afterwards `unwritten = u mod 1024` and
`written` has grown by `1024 * floor(u / 1024)`; when `u < 1024` nothing is
written and both counters are unchanged. -/
theorem intermediate_write_flushes_full_blocks (kind : SliceKind) (s : MeasureRecordBatch)
    (ref_sample : Row) (hu : s.unwritten ≤ s.stored)
    (hs : s.stored ≤ s.storage.num_major_bits_padded) :
    (s.intermediate_write_unwritten_results_to kind ref_sample).2 =
      (List.range (s.unwritten / 1024)).map (fun i =>
        WriterCall.batch_write_bytes
          ⟨s.storage.num_minor_bits_padded,
            xor_reference s.shot_mask ref_sample (s.written + 1024 * i)
              ((s.storage.rows.drop (s.stored - s.unwritten + 1024 * i)).take 1024)⟩ 16) ∧
    (s.intermediate_write_unwritten_results_to kind ref_sample).2.length = s.unwritten / 1024 ∧
    (∀ call ∈ (s.intermediate_write_unwritten_results_to kind ref_sample).2,
      ∃ table, call = WriterCall.batch_write_bytes table 16 ∧ table.rows.length = 1024) ∧
    (s.intermediate_write_unwritten_results_to kind ref_sample).1.unwritten =
      s.unwritten % 1024 ∧
    (s.intermediate_write_unwritten_results_to kind ref_sample).1.written =
      s.written + 1024 * (s.unwritten / 1024) ∧
    (s.unwritten < 1024 →
      (s.intermediate_write_unwritten_results_to kind ref_sample).2 = [] ∧
      (s.intermediate_write_unwritten_results_to kind ref_sample).1.written = s.written ∧
      (s.intermediate_write_unwritten_results_to kind ref_sample).1.unwritten =
        s.unwritten) := by
  obtain ⟨-, -, i3, i4, -, -, i7⟩ := intermediate_write_fields kind s ref_sample
  obtain ⟨o1, -⟩ := flush_blocks_out kind ref_sample (s.unwritten / 1024 + 1) s []
    (Nat.lt_succ_self _) hu hs
  rw [List.nil_append] at o1
  rw [i7, o1, i3, i4]
  refine ⟨rfl, by simp, ?_, rfl, rfl, ?_⟩
  · intro call hcall
    obtain ⟨i, hi, e⟩ := List.mem_map.mp hcall
    refine ⟨_, e.symm, ?_⟩
    have hi' : i < s.unwritten / 1024 := List.mem_range.mp hi
    simp only [xor_reference_length, List.length_take, List.length_drop]
    simp only [simd_bit_table.num_major_bits_padded] at hs
    omega
  · intro hlt
    have h0 : s.unwritten / 1024 = 0 := by omega
    rw [h0]
    refine ⟨rfl, rfl, ?_⟩
    omega

theorem intermediate_write_flushes_full_blocks_witness :
    (run .view (List.replicate 1025 (.record_result [true])) (init 64 1 2)).unwritten ≤
      (run .view (List.replicate 1025 (.record_result [true])) (init 64 1 2)).stored ∧
    ((run .view (List.replicate 1025 (.record_result [true])) (init 64 1 2)
        ).intermediate_write_unwritten_results_to .view [true]).2.length =
      (run .view (List.replicate 1025 (.record_result [true])) (init 64 1 2)).unwritten / 1024 :=
  ⟨(reachable_bounds .view 64 1 2 (by decide) _).1,
    (intermediate_write_flushes_full_blocks .view
      (run .view (List.replicate 1025 (.record_result [true])) (init 64 1 2)) [true]
      (reachable_bounds .view 64 1 2 (by decide) _).1
      (reachable_bounds .view 64 1 2 (by decide) _).2.1).2.1⟩


/-! ## The reference XOR -/

theorem ref_bit_eq_getD (ref : Row) (j : Nat) : ref_bit ref j = ref.getD j false := by
  unfold ref_bit
  by_cases h : j < ref.length
  · simp [h]
  · rw [List.getD_eq_default _ _ (by omega)]
    simp [h]

theorem ref_bit_zero (n j : Nat) : ref_bit (List.replicate n false) j = false := by
  rw [ref_bit_eq_getD]
  by_cases h : j < n
  · rw [List.getD_eq_getElem _ _ (by simpa using h)]
    simp
  · rw [List.getD_eq_default _ _ (by simp; omega)]

theorem xor_reference_eq_spec (mask ref : Row) (rows : List Row) :
    ∀ j, xor_reference mask ref j rows = reference_xor_rows mask ref j rows := by
  induction rows with
  | nil => intro j; rfl
  | cons r rs ih =>
    intro j
    simp only [xor_reference, reference_xor_rows, ih, ref_bit_eq_getD]

theorem xor_reference_zero (mask : Row) (n : Nat) (rows : List Row) :
    ∀ j, xor_reference mask (List.replicate n false) j rows = rows := by
  induction rows with
  | nil => intro j; rfl
  | cons r rs ih =>
    intro j
    simp [xor_reference, ih, ref_bit_zero]

/-- The spec's reference XOR on a stream of full blocks. -/
theorem reference_xor_blocks (mask ref : Row) (q : Nat) :
    ∀ (j : Nat) (g : Nat → simd_bit_table), (∀ i, i < q → (g i).rows.length = 1024) →
      reference_xor mask ref j
          ((List.range q).map (fun i => WriterCall.batch_write_bytes (g i) 16)) =
        (List.range q).map (fun i =>
          WriterCall.batch_write_bytes
            ⟨(g i).num_minor_bits_padded,
              xor_reference mask ref (j + 1024 * i) (g i).rows⟩ 16) := by
  induction q with
  | zero => intro j g _; rfl
  | succ n ih =>
    intro j g hlen
    rw [List.range_succ_eq_map, List.map_cons, List.map_cons, List.map_map, List.map_map]
    simp only [reference_xor]
    have h0 : (g 0).rows.length = 1024 := hlen 0 (Nat.succ_pos _)
    have ih' := ih (j + 1024) (fun i => g (i + 1)) (fun i hi => hlen (i + 1) (by omega))
    refine congrArg₂ List.cons ?_ ?_
    · rw [xor_reference_eq_spec]
      rfl
    · rw [h0]
      have e : ((fun i => WriterCall.batch_write_bytes (g i) 16) ∘ Nat.succ) =
          (fun i => WriterCall.batch_write_bytes (g (i + 1)) 16) := rfl
      rw [e, ih']
      apply List.map_congr_left
      intro i _
      simp only [Function.comp, Nat.succ_eq_add_one]
      have e2 : j + 1024 + 1024 * i = j + 1024 * (i + 1) := by omega
      rw [e2]

/-- The spec's reference XOR on a stream of single rows followed by other
calls. -/
theorem reference_xor_bits (mask ref : Row) (rest : List WriterCall) (q : Nat) :
    ∀ (j : Nat) (g : Nat → Row),
      reference_xor mask ref j
          ((List.range q).map (fun i => WriterCall.batch_write_bit (g i)) ++ rest) =
        (List.range q).map (fun i =>
          WriterCall.batch_write_bit
            (if ref_bit ref (j + i) then xor_assign (g i) mask else g i)) ++
          reference_xor mask ref (j + q) rest := by
  induction q with
  | zero => intro j g; rfl
  | succ n ih =>
    intro j g
    rw [List.range_succ_eq_map, List.map_cons, List.map_cons, List.map_map, List.map_map,
      List.cons_append, List.cons_append]
    simp only [reference_xor]
    have ih' := ih (j + 1) (fun i => g (i + 1))
    refine congrArg₂ List.cons ?_ ?_
    · rw [ref_bit_eq_getD]
      rfl
    · have e : ((fun i => WriterCall.batch_write_bit (g i)) ∘ Nat.succ) =
          (fun i => WriterCall.batch_write_bit (g (i + 1))) := rfl
      rw [e, ih']
      have e3 : j + 1 + n = j + (n + 1) := by omega
      rw [e3]
      refine congrArg (fun l => l ++ _) ?_
      apply List.map_congr_left
      intro i _
      simp only [Function.comp, Nat.succ_eq_add_one]
      have e2 : j + 1 + i = j + (i + 1) := by omega
      rw [e2]

/-- C4: for either write operation the rows handed to the writer with
`ref_sample` are, row by row, the rows handed to it from the same record with
an all-zero reference, XORed with the reference: the row with global index `j`
(`written` when a single row is emitted, `written + k` inside a 1024-row block)
is XORed with `shot_mask` exactly when bit `j` of `ref_sample` is set. -/
theorem reference_xor_equivalence (kind : SliceKind) (s : MeasureRecordBatch)
    (ref_sample : Row) (n : Nat) (hu : s.unwritten ≤ s.stored)
    (hs : s.stored ≤ s.storage.num_major_bits_padded)
    (hw : ∀ r ∈ s.storage.rows, r.length ≤ s.shot_mask.length) :
    (s.intermediate_write_unwritten_results_to kind ref_sample).2 =
      reference_xor s.shot_mask ref_sample s.written
        (s.intermediate_write_unwritten_results_to kind (List.replicate n false)).2 ∧
    (s.final_write_unwritten_results_to ref_sample).2 =
      reference_xor s.shot_mask ref_sample s.written
        (s.final_write_unwritten_results_to (List.replicate n false)).2 := by
  constructor
  · obtain ⟨-, -, -, -, -, -, i7⟩ := intermediate_write_fields kind s ref_sample
    obtain ⟨-, -, -, -, -, -, z7⟩ := intermediate_write_fields kind s (List.replicate n false)
    obtain ⟨o1, -⟩ := flush_blocks_out kind ref_sample (s.unwritten / 1024 + 1) s []
      (Nat.lt_succ_self _) hu hs
    obtain ⟨z1, -⟩ := flush_blocks_out kind (List.replicate n false) (s.unwritten / 1024 + 1) s []
      (Nat.lt_succ_self _) hu hs
    rw [List.nil_append] at o1 z1
    rw [i7, z7, o1, z1]
    simp only [xor_reference_zero]
    rw [reference_xor_blocks s.shot_mask ref_sample (s.unwritten / 1024) s.written
      (fun i => ⟨s.storage.num_minor_bits_padded,
        (s.storage.rows.drop (s.stored - s.unwritten + 1024 * i)).take 1024⟩)]
    intro i hi
    simp only [List.length_take, List.length_drop]
    simp only [simd_bit_table.num_major_bits_padded] at hs
    omega
  · rw [final_write_eq s ref_sample hu hw, final_write_eq s (List.replicate n false) hu hw]
    simp only [ref_bit_zero]
    have := reference_xor_bits s.shot_mask ref_sample [WriterCall.write_end] s.unwritten
      s.written (fun i => s.storage.row (s.stored - s.unwritten + i))
    simp only [reference_xor, Bool.false_eq_true, if_false] at this ⊢
    rw [this]

theorem reference_xor_equivalence_witness :
    (run .view (List.replicate 2049 (.record_result [true])) (init 64 1 2)).unwritten ≤
      (run .view (List.replicate 2049 (.record_result [true])) (init 64 1 2)).stored ∧
    ((run .view (List.replicate 2049 (.record_result [true])) (init 64 1 2)
        ).intermediate_write_unwritten_results_to .view [false, true]).2 =
      reference_xor
        (run .view (List.replicate 2049 (.record_result [true])) (init 64 1 2)).shot_mask
        [false, true]
        (run .view (List.replicate 2049 (.record_result [true])) (init 64 1 2)).written
        ((run .view (List.replicate 2049 (.record_result [true])) (init 64 1 2)
          ).intermediate_write_unwritten_results_to .view (List.replicate 0 false)).2 ∧
    ((run .view (List.replicate 2049 (.record_result [true])) (init 64 1 2)
        ).final_write_unwritten_results_to [false, true]).2 =
      reference_xor
        (run .view (List.replicate 2049 (.record_result [true])) (init 64 1 2)).shot_mask
        [false, true]
        (run .view (List.replicate 2049 (.record_result [true])) (init 64 1 2)).written
        ((run .view (List.replicate 2049 (.record_result [true])) (init 64 1 2)
          ).final_write_unwritten_results_to (List.replicate 0 false)).2 :=
  ⟨(reachable_bounds .view 64 1 2 (by decide) _).1,
    reference_xor_equivalence .view
      (run .view (List.replicate 2049 (.record_result [true])) (init 64 1 2)) [false, true] 0
      (reachable_bounds .view 64 1 2 (by decide) _).1
      (reachable_bounds .view 64 1 2 (by decide) _).2.1
      (reachable_bounds .view 64 1 2 (by decide) _).2.2⟩

/-! ## Written and unwritten rows -/

theorem recorded_args_snoc (ops : List Op) (op : Op) :
    (recorded_args (ops ++ [op])).length =
      (recorded_args ops).length + (match op with | .record_result _ => 1 | _ => 0) := by
  cases op <;> simp [recorded_args, List.filterMap_append]

theorem appended_rows_length (mask : Row) (ops : List Op) :
    (appended_rows mask ops).length = (recorded_args ops).length := by
  simp [appended_rows]

/-- Without `mark_all_as_written` and `clear` every appended row is counted by
`written` or by `unwritten`. -/
theorem count_eq_run (kind : SliceKind) (W num_shots max_lookback : Nat) (hW : 0 < W)
    (ops : List Op) (hmark : Op.mark_all_as_written ∉ ops) (hclear : Op.clear ∉ ops) :
    (run kind ops (init W num_shots max_lookback)).written +
      (run kind ops (init W num_shots max_lookback)).unwritten = (recorded_args ops).length := by
  induction ops using List.reverseRecOn with
  | nil => rfl
  | append_singleton l a ih =>
    have hm : Op.mark_all_as_written ∉ l := fun h => hmark (List.mem_append_left _ h)
    have hc : Op.clear ∉ l := fun h => hclear (List.mem_append_left _ h)
    have ih' := ih hm hc
    have hinv := inv_run kind W num_shots max_lookback hW l
    rw [run_snoc, recorded_args_snoc]
    cases a <;> dsimp only
    case record_result r =>
      show (run kind l (init W num_shots max_lookback)).written +
        ((run kind l (init W num_shots max_lookback)).unwritten + 1) = _
      omega
    case mark_all_as_written =>
      exact absurd (List.mem_append_right _ (List.mem_singleton_self _)) hmark
    case intermediate_write ref =>
      obtain ⟨-, -, i3, i4, -⟩ := intermediate_write_fields kind
        (run kind l (init W num_shots max_lookback)) ref
      simp only [step]
      rw [i3, i4]
      omega
    case final_write ref =>
      obtain ⟨-, -, f3, f4, -⟩ := final_write_fields
        (run kind l (init W num_shots max_lookback)) ref
      have := hinv.u_le
      simp only [step]
      rw [f3, f4]
      omega
    case clear =>
      exact absurd (List.mem_append_right _ (List.mem_singleton_self _)) hclear

/-- C6, counterexample: after one `record_result` and one
`mark_all_as_written` the counters `written` and `unwritten` are both 0,
although one row was appended. -/
theorem mark_all_as_written_drops_rows :
    ¬ ((run .copy [.record_result [true], .mark_all_as_written] (init 64 1 0)).written +
        (run .copy [.record_result [true], .mark_all_as_written] (init 64 1 0)).unwritten =
      (recorded_args [.record_result [true], .mark_all_as_written]).length) := by
  decide

/-- C6, amended: in every state reached from a freshly constructed record by
any sequence of calls, `written + unwritten` is at most the number of
`record_result` calls made so far, and equal to it when the sequence has no
`mark_all_as_written` (and no `clear`), which drop rows without writing them;
and the unwritten rows are exactly the last `unwritten` rows of the record
(indices `stored - unwritten .. stored - 1`), holding the last `unwritten`
appended rows in order. -/
theorem appended_rows_written_or_unwritten (W num_shots max_lookback : Nat) (hW : 0 < W)
    (kind : SliceKind) (ops : List Op) :
    (run kind ops (init W num_shots max_lookback)).written +
        (run kind ops (init W num_shots max_lookback)).unwritten ≤
      (recorded_args ops).length ∧
    (Op.mark_all_as_written ∉ ops → Op.clear ∉ ops →
      (run kind ops (init W num_shots max_lookback)).written +
          (run kind ops (init W num_shots max_lookback)).unwritten =
        (recorded_args ops).length) ∧
    (run kind ops (init W num_shots max_lookback)).unwritten ≤
      (run kind ops (init W num_shots max_lookback)).stored ∧
    ((run kind ops (init W num_shots max_lookback)).storage.rows.take
        (run kind ops (init W num_shots max_lookback)).stored).drop
        ((run kind ops (init W num_shots max_lookback)).stored -
          (run kind ops (init W num_shots max_lookback)).unwritten) =
      ((recorded_args ops).map
        (fun r => and_assign r (run kind ops (init W num_shots max_lookback)).shot_mask)).drop
        ((recorded_args ops).length -
          (run kind ops (init W num_shots max_lookback)).unwritten) := by
  have h := inv_run kind W num_shots max_lookback hW ops
  have hc := h.count
  have ht := h.tail
  rw [appended_rows_length] at hc ht
  refine ⟨hc, count_eq_run kind W num_shots max_lookback hW ops, h.u_le, ?_⟩
  rw [ht, h.mask_eq]
  rfl

theorem appended_rows_written_or_unwritten_witness :
    0 < 64 ∧
    (run .view [.record_result [true], .final_write [], .record_result [false]]
          (init 64 1 0)).written +
        (run .view [.record_result [true], .final_write [], .record_result [false]]
          (init 64 1 0)).unwritten = 2 :=
  ⟨by decide,
    (appended_rows_written_or_unwritten 64 1 0 (by decide) .view
      [.record_result [true], .final_write [], .record_result [false]]).2.1
      (by decide) (by decide)⟩

/-! ## Lookback correctness -/

/-- C1: in every state reached from construction by any sequence of the five
calls, whenever `lookback(k)` succeeds it returns the row appended exactly `k`
appends ago: the argument of the `k`-th most recent `record_result` call ANDed
with `shot_mask`.  Doubling, compaction and the write operations change
neither the row nor its content.  The flushed slice is a table of its own
(`SliceKind.copy`). -/
theorem lookback_returns_kth_latest (W num_shots max_lookback : Nat) (hW : 0 < W)
    (ops : List Op) (k : Nat) (row : Row)
    (h : (run .copy ops (init W num_shots max_lookback)).lookback k = .ok row) :
    ∃ arg, (recorded_args ops).reverse[k - 1]? = some arg ∧
      row = and_assign arg (run .copy ops (init W num_shots max_lookback)).shot_mask := by
  have hinv := inv_run .copy W num_shots max_lookback hW ops
  have hcopy := inv_copy_run W num_shots max_lookback hW ops
  have hlen := appended_rows_length (init W num_shots max_lookback).shot_mask ops
  rw [hinv.mask_eq]
  generalize run .copy ops (init W num_shots max_lookback) = s at h hinv hcopy
  have hs := hinv.s_le
  have hsh := hcopy.s_hist
  rw [hlen] at hsh
  unfold lookback at h
  split at h
  · exact absurd h (by simp)
  · rename_i h1
    split at h
    · exact absurd h (by simp)
    · rename_i h2
      split at h
      · exact absurd h (by simp)
      · have hrow : s.storage.row (s.stored - k) = row := by
          simpa using h
        have hk : k - 1 < (recorded_args ops).length := by omega
        refine ⟨(recorded_args ops)[(recorded_args ops).length - 1 - (k - 1)], ?_, ?_⟩
        · rw [List.getElem?_reverse hk, List.getElem?_eq_getElem]
        · rw [← hrow]
          unfold simd_bit_table.row
          have hi : s.stored - k < s.storage.rows.length := by omega
          rw [List.getD_eq_getElem _ _ hi]
          have e1 : s.storage.rows[s.stored - k]? =
              (s.storage.rows.take s.stored)[s.stored - k]? := by
            rw [List.getElem?_take_of_lt (by omega)]
          rw [hcopy.full, List.getElem?_drop, hlen] at e1
          have e2 : (recorded_args ops).length - s.stored + (s.stored - k) =
              (recorded_args ops).length - 1 - (k - 1) := by omega
          rw [e2, List.getElem?_eq_getElem hi] at e1
          simp only [appended_rows, List.getElem?_map] at e1
          rw [List.getElem?_eq_getElem (by omega)] at e1
          simpa using e1

theorem lookback_returns_kth_latest_witness :
    0 < 64 ∧
    ∃ arg,
      (recorded_args [.record_result [true, true], .record_result [true, false],
        .mark_all_as_written, .record_result [false, true], .intermediate_write [true],
        .final_write [true, true, true]]).reverse[2 - 1]? = some arg ∧
      [true, false] =
        and_assign arg (run .copy [.record_result [true, true], .record_result [true, false],
          .mark_all_as_written, .record_result [false, true], .intermediate_write [true],
          .final_write [true, true, true]] (init 64 1 2)).shot_mask :=
  ⟨by decide,
    lookback_returns_kth_latest 64 1 2 (by decide)
      [.record_result [true, true], .record_result [true, false],
        .mark_all_as_written, .record_result [false, true], .intermediate_write [true],
        .final_write [true, true, true]] 2 [true, false] rfl⟩

/-! ## The two kinds of slice -/

/-- Where the two kinds of slice differ: after one flush iteration a slice that
is a table of its own leaves the table of the record as it was, while a slice
that shares the rows of the record leaves the first flushed row XORed with the
shot mask when its reference bit is set. -/
theorem flush_block_copy_or_view (ref : Row) (s : MeasureRecordBatch)
    (hu : s.unwritten ≤ s.stored) (hs : s.stored ≤ s.storage.num_major_bits_padded)
    (h1 : 1024 ≤ s.unwritten) (hb : ref_bit ref s.written = true) :
    (flush_block .copy ref s).1.storage = s.storage ∧
    (flush_block .view ref s).1.storage.row (s.stored - s.unwritten) =
      xor_assign (s.storage.row (s.stored - s.unwritten)) s.shot_mask := by
  simp only [simd_bit_table.num_major_bits_padded] at hs
  have ha : s.stored - s.unwritten < s.storage.rows.length := by omega
  constructor
  · simp only [flush_block]
  · simp only [flush_block, simd_bit_table.write_back, simd_bit_table.slice_maj,
      simd_bit_table.row, List.getD_eq_getElem?_getD]
    have hlen : (List.take (s.stored - s.unwritten) s.storage.rows).length =
        s.stored - s.unwritten := by
      rw [List.length_take]; omega
    rw [List.append_assoc, List.getElem?_append_right (by omega), hlen, Nat.sub_self]
    have hd : List.drop (s.stored - s.unwritten) s.storage.rows =
        s.storage.rows[s.stored - s.unwritten] ::
          List.drop (s.stored - s.unwritten + 1) s.storage.rows :=
      List.drop_eq_getElem_cons ha
    have e : s.stored - s.unwritten + 1024 - (s.stored - s.unwritten) = 1023 + 1 := by omega
    rw [hd, e, List.take_succ_cons]
    simp only [xor_reference, hb, if_true, List.cons_append, List.getElem?_cons_zero,
      Option.getD_some, List.getElem?_eq_getElem ha]

end Stim
